import Mathlib

/-!
Verification of the PaperFilter scraper (src/arxiv_scraper.py and
src/extract_links_and_abstracts.py) against its natural-language
specification.

The two Python files are shallowly embedded below:
  * Python strings are `List Char` (wrapped in `String` at record level);
    the regular-expression operations actually used by the code
    (`re.search(r'/(\d+\.\d+)', _)`, `re.compile(r'/abs/\d+\.\d+')`,
    `re.sub(r'Title:\s*', '', _, flags=re.I)`, ...) are implemented as
    executable matchers specialised to those patterns (`\d` is modelled as
    the ASCII digits, `\s` as the ASCII whitespace characters, and `re.I`
    via `Char.toLower`, which is what these patterns mean on the pages the
    scraper targets).
  * The parsed BeautifulSoup document is a rose tree `Node` carrying the
    only attributes the code reads: the tag name, the (multi-valued)
    `class` attribute and the `href` attribute.  `find`/`find_all` are
    pre-order descendant searches, `find_next_sibling('dd')` scans the
    following-sibling list, `get_text` concatenates the text leaves, and
    BeautifulSoup's structural `Tag.__eq__` (used by `list.index`) is the
    structural equality of `Node`.
  * Network access (`requests`) is an oracle parameter: a page fetch is an
    `Option Node` and the abstract fetch `get_abstract` is an oracle
    `String → Option String` at the component boundary.
-/

namespace PF

/-! ### Python string primitives -/

/-- The characters of Python's `str.split()` / `\s` (ASCII part). -/
def pyIsSpace (c : Char) : Bool :=
  c = ' ' || c = '\t' || c = '\n' || c = '\r' || c = '\x0b' || c = '\x0c'

/-- Python `str.strip()`. -/
def pyStrip (l : List Char) : List Char :=
  ((l.dropWhile pyIsSpace).reverse.dropWhile pyIsSpace).reverse

/-- Helper for `pyWords`: `cur` is the current word, reversed. -/
def pyWordsAux : List Char → List Char → List (List Char)
  | cur, [] => if cur.isEmpty then [] else [cur.reverse]
  | cur, c :: r =>
    if pyIsSpace c then
      if cur.isEmpty then pyWordsAux [] r else cur.reverse :: pyWordsAux [] r
    else pyWordsAux (c :: cur) r

/-- Python `str.split()` with no argument: maximal non-whitespace runs. -/
def pyWords (l : List Char) : List (List Char) := pyWordsAux [] l

/-- Python `' '.join(s.split())`: whitespace normalization. -/
def normWS (l : List Char) : List Char := List.intercalate [' '] (pyWords l)

/-- Case-insensitive prefix test; `pat` is given in lowercase. -/
def lowerStartsWith (pat s : List Char) : Bool :=
  decide ((s.take pat.length).map Char.toLower = pat)

/-- Length of the leading whitespace run (`\s*`, matched greedily). -/
def wsRun (s : List Char) : Nat := (s.takeWhile pyIsSpace).length

/-- Length of the match of `Title:\s*` (with `re.I`) at the head of `s`. -/
def matchTitleAt (s : List Char) : Option Nat :=
  if lowerStartsWith "title:".data s then some (6 + wsRun (s.drop 6)) else none

/-- Length of the match of `Abstract:\s*` (with `re.I`) at the head of `s`. -/
def matchAbstractAt (s : List Char) : Option Nat :=
  if lowerStartsWith "abstract:".data s then some (9 + wsRun (s.drop 9)) else none

/-- Length of the match of `Authors?:\s*` (with `re.I`) at the head of `s`;
the optional `s` is tried greedily, as the regex engine does. -/
def matchAuthorsAt (s : List Char) : Option Nat :=
  if lowerStartsWith "authors:".data s then some (8 + wsRun (s.drop 8))
  else if lowerStartsWith "author:".data s then some (7 + wsRun (s.drop 7))
  else none

/-- Fueled worker for `reSub`: delete every leftmost non-overlapping match.
The matchers above never return `some 0`, so each deletion consumes at
least one character and `fuel = s.length` is always sufficient. -/
def reSubAux (m : List Char → Option Nat) : Nat → List Char → List Char
  | 0, _ => []
  | _ + 1, [] => []
  | fuel + 1, c :: rest =>
    match m (c :: rest) with
    | some (n + 1) => reSubAux m fuel (rest.drop n)
    | _ => c :: reSubAux m fuel rest

/-- Python `re.sub(pattern, '', s)` for the patterns modelled by `m`. -/
def reSub (m : List Char → Option Nat) (s : List Char) : List Char :=
  reSubAux m s.length s

/-- `re.sub(r'Title:\s*', '', s, flags=re.I).strip()` followed by
`' '.join(_.split())` — the title cleanup of arxiv_scraper.py lines 76–78
(and of extract_links_and_abstracts.py lines 124–125 / 189–190). -/
def titleClean (s : String) : String :=
  ⟨normWS (pyStrip (reSub matchTitleAt s.data))⟩

/-- `re.sub(r'Abstract:\s*', '', s, flags=re.I).strip()` — the abstract
cleanup of extract_links_and_abstracts.py lines 45 and 210–211. -/
def abstractClean (s : String) : String :=
  ⟨pyStrip (reSub matchAbstractAt s.data)⟩

/-- `re.sub(r'Authors?:\s*', '', s, flags=re.I).strip()` — arxiv_scraper.py
line 106. -/
def authorsClean (s : String) : String :=
  ⟨pyStrip (reSub matchAuthorsAt s.data)⟩

/-- Helper for `re.split(r',', s)`: split at every comma. -/
def splitComma : List Char → List (List Char)
  | [] => [[]]
  | c :: r =>
    if c = ',' then [] :: splitComma r
    else match splitComma r with
      | [] => [[c]]
      | w :: ws => (c :: w) :: ws

/-- `[a.strip() for a in re.split(r',', s) if a.strip()]` — arxiv_scraper.py
line 109. -/
def splitAuthors (s : List Char) : List (List Char) :=
  ((splitComma s).map pyStrip).filter (fun a => !a.isEmpty)

/-- Match `\d+\.\d+` at the head of `s`, returning the matched text.  The
greedy `\d+` with no digit/`.` overlap makes the match deterministic:
maximal digit run, a dot, maximal digit run. -/
def matchIdAt (s : List Char) : Option (List Char) :=
  let d1 := s.takeWhile Char.isDigit
  if d1.isEmpty then none
  else
    match s.drop d1.length with
    | '.' :: r2 =>
      let d2 := r2.takeWhile Char.isDigit
      if d2.isEmpty then none else some (d1 ++ '.' :: d2)
    | _ => none

/-- `re.search(r'/(\d+\.\d+)', s)`: the capture group of the leftmost
match. -/
def searchSlashId : List Char → Option (List Char)
  | [] => none
  | c :: rest =>
    if c = '/' then
      match matchIdAt rest with
      | some cap => some cap
      | none => searchSlashId rest
    else searchSlashId rest

/-- Does `/abs/\d+\.\d+` match at the head of `s`? -/
def matchAbsAt (s : List Char) : Bool :=
  match s with
  | '/' :: 'a' :: 'b' :: 's' :: '/' :: r => (matchIdAt r).isSome
  | _ => false

/-- `re.compile(r'/abs/\d+\.\d+')` used as a BeautifulSoup attribute
filter, i.e. `re.search` semantics: some position matches. -/
def containsAbsId : List Char → Bool
  | [] => false
  | c :: rest => matchAbsAt (c :: rest) || containsAbsId rest

/-- Does `https://arxiv.org/html/\d+\.\d+v\d+` match at the head of `s`? -/
def matchHtmlAbsAt (s : List Char) : Bool :=
  if s.take 23 = "https://arxiv.org/html/".data then
    match matchIdAt (s.drop 23) with
    | some cap =>
      match s.drop (23 + cap.length) with
      | 'v' :: r => !(r.takeWhile Char.isDigit).isEmpty
      | _ => false
    | none => false
  else false

/-- `re.search` semantics for the absolute html-link pattern. -/
def containsHtmlAbs : List Char → Bool
  | [] => false
  | c :: rest => matchHtmlAbsAt (c :: rest) || containsHtmlAbs rest

/-- Does `/html/\d+\.\d+` match at the head of `s`? -/
def matchHtmlRelAt (s : List Char) : Bool :=
  match s with
  | '/' :: 'h' :: 't' :: 'm' :: 'l' :: '/' :: r => (matchIdAt r).isSome
  | _ => false

/-- `re.search` semantics for the root-relative html-link pattern. -/
def containsHtmlRel : List Char → Bool
  | [] => false
  | c :: rest => matchHtmlRelAt (c :: rest) || containsHtmlRel rest

/-- Case-sensitive substring test (for `re.compile(r'/search/')`). -/
def containsSub (pat : List Char) : List Char → Bool
  | [] => pat.isEmpty
  | c :: r => pat.isPrefixOf (c :: r) || containsSub pat r

/-- Case-insensitive substring test (for `re.compile('Title:', re.I)`). -/
def containsCI (pat : List Char) : List Char → Bool
  | [] => lowerStartsWith pat []
  | c :: r => lowerStartsWith pat (c :: r) || containsCI pat r

/-- Does the full string have the shape `\d+\.\d+`?  (The shape of every
captured identifier.) -/
def isIdShape (s : List Char) : Bool :=
  match matchIdAt s with
  | some cap => cap = s
  | none => false

/-! ### The document tree

A parsed document as BeautifulSoup exposes it to this code: elements with
tag name, `class` list and optional `href`, and text nodes. -/

inductive Node where
  | text (s : String)
  | elem (tag : String) (cls : List String) (href : Option String)
      (children : List Node)

/- Structural equality, the model of BeautifulSoup's `Tag.__eq__` /
`NavigableString.__eq__` (both compare by content, recursively). -/
mutual
def Node.beq : Node → Node → Bool
  | .text s, .text t => s == t
  | .elem t1 c1 h1 ch1, .elem t2 c2 h2 ch2 =>
      t1 == t2 && c1 == c2 && h1 == h2 && Node.beqL ch1 ch2
  | _, _ => false

def Node.beqL : List Node → List Node → Bool
  | [], [] => true
  | x :: xs, y :: ys => Node.beq x y && Node.beqL xs ys
  | _, _ => false
end

instance : BEq Node := ⟨Node.beq⟩

mutual
theorem Node.beq_iff : ∀ a b : Node, Node.beq a b = true ↔ a = b
  | .text _, .text _ => by simp [Node.beq]
  | .text _, .elem .. => by simp [Node.beq]
  | .elem .., .text _ => by simp [Node.beq]
  | .elem t1 c1 h1 ch1, .elem t2 c2 h2 ch2 => by
      simp [Node.beq, Node.beqL_iff ch1 ch2, and_assoc]

theorem Node.beqL_iff : ∀ a b : List Node, Node.beqL a b = true ↔ a = b
  | [], [] => by simp [Node.beqL]
  | [], _ :: _ => by simp [Node.beqL]
  | _ :: _, [] => by simp [Node.beqL]
  | x :: xs, y :: ys => by
      simp [Node.beqL, Node.beq_iff x y, Node.beqL_iff xs ys]
end

instance : DecidableEq Node := fun a b =>
  decidable_of_iff (Node.beq a b = true) (Node.beq_iff a b)

instance : LawfulBEq Node where
  eq_of_beq h := (Node.beq_iff _ _).mp h
  rfl := by intro a; exact (Node.beq_iff a a).mpr rfl

/- All descendants of a node in pre-order (the node itself excluded),
text leaves included — the iteration order of BeautifulSoup's
`find` / `find_all`. -/
mutual
def Node.descs : Node → List Node
  | .text _ => []
  | .elem _ _ _ ch => Node.descsL ch

def Node.descsL : List Node → List Node
  | [] => []
  | x :: xs => x :: Node.descs x ++ Node.descsL xs
end

/-- `node.find(...)`: first descendant satisfying the filter. -/
def findDesc (p : Node → Bool) (n : Node) : Option Node := (Node.descs n).find? p

/-- `node.find_all(...)`: all descendants satisfying the filter. -/
def findAllDesc (p : Node → Bool) (n : Node) : List Node := (Node.descs n).filter p

/- `node.get_text()`: concatenation of the text leaves. -/
mutual
def Node.getText : Node → List Char
  | .text s => s.data
  | .elem _ _ _ ch => Node.getTextL ch

def Node.getTextL : List Node → List Char
  | [] => []
  | x :: xs => Node.getText x ++ Node.getTextL xs
end

/- `node.get_text(strip=True)`: each text fragment stripped, empty
fragments dropped, the rest joined with no separator. -/
mutual
def Node.getTextStrip : Node → List Char
  | .text s => pyStrip s.data
  | .elem _ _ _ ch => Node.getTextStripL ch

def Node.getTextStripL : List Node → List Char
  | [] => []
  | x :: xs => Node.getTextStrip x ++ Node.getTextStripL xs
end

/-- BeautifulSoup's `Tag.string`: the single text child, recursing through
single-`Tag` children; `None` when there are zero or several children. -/
def nodeString : Node → Option String
  | .text s => some s
  | .elem _ _ _ [c] => nodeString c
  | .elem _ _ _ _ => none

/-- Tag-name test. -/
def isTagN (t : String) : Node → Bool
  | .elem tg _ _ _ => tg == t
  | .text _ => false

/-- `class_='c'` matches when `c` is one of the element's classes. -/
def hasClass (c : String) : Node → Bool
  | .elem _ cls _ _ => cls.contains c
  | .text _ => false

/-- `find('div', class_=c)` filter. -/
def isDivClass (c : String) (n : Node) : Bool := isTagN "div" n && hasClass c n

/-- The element's `href` attribute. -/
def hrefOf : Node → Option String
  | .elem _ _ h _ => h
  | .text _ => none

/-- `find('a', href=re.compile(...))` filter: an `a` element whose `href`
attribute exists and matches. -/
def isLinkMatching (m : List Char → Bool) (n : Node) : Bool :=
  isTagN "a" n &&
    (match hrefOf n with
     | some h => m h.data
     | none => false)

/- All `dt` elements of the document in document order, each paired with
its following-sibling list — `soup.find_all('dt')` together with the data
`find_next_sibling` needs. -/
mutual
def dtPairsN : Node → List (Node × List Node)
  | .text _ => []
  | .elem _ _ _ ch => dtPairsL ch

def dtPairsL : List Node → List (Node × List Node)
  | [] => []
  | x :: xs =>
      (if isTagN "dt" x then [(x, xs)] else []) ++ dtPairsN x ++ dtPairsL xs
end

/- First matching descendant together with its parent (for
`title_span.parent`); the search starts with `root`'s children, whose
parent is `root` itself. -/
mutual
def findWPN (p : Node → Bool) : Node → Option (Node × Node)
  | .text _ => none
  | .elem t c h ch => findWPL p (.elem t c h ch) ch

def findWPL (p : Node → Bool) (parent : Node) : List Node → Option (Node × Node)
  | [] => none
  | x :: xs =>
      if p x then some (x, parent)
      else
        match findWPN p x with
        | some r => some r
        | none => findWPL p parent xs
end

/-! ### Record Extractor of arxiv_scraper.py (`get_papers_from_page`) -/

/-- The `paper` dict built by `get_papers_from_page`.  `arxiv_id` is an
`Option` because lines 60–62 set the key only when the second regex search
succeeds, without a `continue` in the failure case. -/
structure ScrPaper where
  arxiv_id : Option String
  title : String
  authors : List String
  deriving DecidableEq

/-- The filter of line 55: `dt.find('a', href=re.compile(r'/abs/\d+\.\d+'))`. -/
def isArxivAbsLink (n : Node) : Bool := isLinkMatching containsAbsId n

/-- Lines 81–82: `dd.find('span', class_='descriptor',
string=re.compile('Title:', re.I))`. -/
def isDescriptorTitleSpan (n : Node) : Bool :=
  isTagN "span" n && hasClass "descriptor" n &&
    (match nodeString n with
     | some s => containsCI "title:".data s.data
     | none => false)

/-- Title derivation of lines 69–88: the `list-title` div, else the
descriptor-span fallback using the span's parent's text; `none` means the
`continue` of line 88. -/
def scrTitleOf (dd : Node) : Option String :=
  match findDesc (isDivClass "list-title") dd with
  | some titleDiv => some (titleClean ⟨Node.getText titleDiv⟩)
  | none =>
    match findWPN isDescriptorTitleSpan dd with
    | some r => some (titleClean ⟨Node.getText r.2⟩)
    | none => none

/-- Authors derivation of lines 95–111. -/
def scrAuthorsOf (dd : Node) : List String :=
  match findDesc (isDivClass "list-authors") dd with
  | none => []
  | some adiv =>
    let links := findAllDesc (isLinkMatching (containsSub "/search/".data)) adiv
    if !links.isEmpty then links.map (fun l => (⟨Node.getTextStrip l⟩ : String))
    else
      let t := authorsClean ⟨Node.getText adiv⟩
      if t = "" then [] else (splitAuthors t.data).map (fun a => (⟨a⟩ : String))

/-- The loop body of lines 51–112 for one `dt`; `none` is a `continue`. -/
def scrPaperOfPair (dt : Node) (sibs : List Node) : Option ScrPaper :=
  match findDesc isArxivAbsLink dt with
  | none => none
  | some link =>
    let href := (hrefOf link).getD ""
    let aid : Option String := (searchSlashId href.data).map (fun c => (⟨c⟩ : String))
    match sibs.find? (isTagN "dd") with
    | none => none
    | some dd =>
      match scrTitleOf dd with
      | none => none
      | some title =>
        if title = "" || title.length < 5 then none
        else some { arxiv_id := aid, title := title, authors := scrAuthorsOf dd }

/-- The `for dt in dt_tags` loop, with `papers.append` on success. -/
def extractFromPairs : List (Node × List Node) → List ScrPaper
  | [] => []
  | p :: ps =>
    match scrPaperOfPair p.1 p.2 with
    | none => extractFromPairs ps
    | some r => r :: extractFromPairs ps

/-- The parsing part of `get_papers_from_page` (lines 41–114), applied to a
parsed document. -/
def extractPapers (doc : Node) : List ScrPaper := extractFromPairs (dtPairsN doc)

/-- `get_papers_from_page` at the component boundary: `none` models a
`requests.RequestException` (timeout, connection error, non-2xx), for
which lines 33–39 log and return `[]`. -/
def getPapersFromPage (fetched : Option Node) : List ScrPaper :=
  match fetched with
  | none => []
  | some doc => extractPapers doc

/-! ### Page Fetcher/Paginator (`scrape_all_papers`, lines 117–164) -/

/-- URL construction of lines 139–142. -/
def urlFor (baseUrl : String) (skip : Nat) : String :=
  if skip = 0 then baseUrl else baseUrl ++ "?skip=" ++ toString skip ++ "&show=50"

/-- The `while True` loop of lines 137–161, with explicit fuel (the Python
loop has no a-priori bound).  Returns the accumulator, the list of
requested URLs in order, and whether the loop terminated by `break`
(rather than by running out of fuel). -/
def scrapeLoop (transport : String → Option Node) (baseUrl : String) :
    Nat → Nat → List ScrPaper → List String → List ScrPaper × List String × Bool
  | 0, _, acc, reqs => (acc, reqs, false)
  | fuel + 1, skip, acc, reqs =>
    let url := urlFor baseUrl skip
    let papers := getPapersFromPage (transport url)
    let reqs' := reqs ++ [url]
    if papers.isEmpty then (acc, reqs', true)
    else if papers.length < 50 then (acc ++ papers, reqs', true)
    else scrapeLoop transport baseUrl fuel (skip + 50) (acc ++ papers) reqs'

/-- `scrape_all_papers(base_url)` with a transport oracle. -/
def scrapeAllPapers (transport : String → Option Node) (baseUrl : String)
    (fuel : Nat) : List ScrPaper × List String × Bool :=
  scrapeLoop transport baseUrl fuel 0 [] []

/-! ### Record Extractor of extract_links_and_abstracts.py
(`extract_papers_from_html`, lines 62–135) -/

/-- The `paper` dict of `extract_papers_from_html`; `html_link` is the only
optional key there. -/
structure HtmlPaper where
  arxiv_id : String
  abs_link : String
  html_link : Option String
  title : String
  deriving DecidableEq

/-- Lines 88–99 (identically lines 167–176): locate the `/abs/` marker link
and parse the identifier out of its `href`; `none` is a `continue`. -/
def dtArxivId (dt : Node) : Option String :=
  match findDesc isArxivAbsLink dt with
  | none => none
  | some link =>
    (searchSlashId ((hrefOf link).getD "").data).map (fun c => (⟨c⟩ : String))

/-- Lines 101–113 (identically lines 192–204): the full-text link, absolute
pattern first, then the root-relative pattern resolved against the site
root. -/
def htmlLinkOfDt (dt : Node) : Option String :=
  match findDesc (isLinkMatching containsHtmlAbs) dt with
  | some l => some ((hrefOf l).getD "")
  | none =>
    match findDesc (isLinkMatching containsHtmlRel) dt with
    | some l =>
      let h := (hrefOf l).getD ""
      if h.data.head? = some '/' then some ("https://arxiv.org" ++ h) else some h
    | none => none

/-- The loop body of lines 85–133 for one `dt`; `none` is a `continue`. -/
def htmlPaperOfPair (dt : Node) (sibs : List Node) : Option HtmlPaper :=
  match dtArxivId dt with
  | none => none
  | some aid =>
    let hl := htmlLinkOfDt dt
    match sibs.find? (isTagN "dd") with
    | none => none
    | some dd =>
      match findDesc (isDivClass "list-title") dd with
      | none => none
      | some tdiv =>
        let title := titleClean ⟨Node.getText tdiv⟩
        if title = "" || title.length < 5 then none
        else some { arxiv_id := aid, abs_link := "https://arxiv.org/abs/" ++ aid,
                    html_link := hl, title := title }

/-- The `for dt in dt_tags` loop of `extract_papers_from_html`. -/
def extractHtmlFromPairs : List (Node × List Node) → List HtmlPaper
  | [] => []
  | p :: ps =>
    match htmlPaperOfPair p.1 p.2 with
    | none => extractHtmlFromPairs ps
    | some r => r :: extractHtmlFromPairs ps

/-- `extract_papers_from_html` applied to the parsed document. -/
def extractPapersHtml (doc : Node) : List HtmlPaper :=
  extractHtmlFromPairs (dtPairsN doc)

/-! ### Enrichment Merge Driver (`add_abstracts_to_html`, lines 138–268) -/

/-- A `papers_data` entry (lines 242–247). -/
structure PaperData where
  title : String
  html_link : String
  abs_link : String
  abstract : String
  deriving DecidableEq

/-- The literal fallback placeholder of line 246. -/
def noAbstractText : String := "（未获取到摘要）"

/-- Lines 218–228: the freshly constructed abstract container. -/
def mkAbstractDiv (abstract : String) : Node :=
  .elem "div" ["list-abstract"] none
    [.elem "span" ["descriptor"] none [.text "Abstract:"], .text (" " ++ abstract)]

/-- Children of an element. -/
def childrenOf : Node → List Node
  | .elem _ _ _ ch => ch
  | .text _ => []

/-- Replace the children of an element. -/
def setChildren : Node → List Node → Node
  | .elem t c h _, ch => .elem t c h ch
  | .text s, _ => .text s

/- Rewrite the first pre-order descendant satisfying `p` by `f` (the model
of mutating the object that `find` returned).  The Bool reports whether a
rewrite happened. -/
mutual
def mutFirstN (p : Node → Bool) (f : Node → Node) : Node → Node × Bool
  | .text s => (.text s, false)
  | .elem t c h ch =>
      let r := mutFirstL p f ch
      (.elem t c h r.1, r.2)

def mutFirstL (p : Node → Bool) (f : Node → Node) : List Node → List Node × Bool
  | [] => ([], false)
  | x :: xs =>
      if p x then (f x :: xs, true)
      else
        let r1 := mutFirstN p f x
        if r1.2 then (r1.1 :: xs, true)
        else
          let r2 := mutFirstL p f xs
          (x :: r2.1, r2.2)
end

/-- Lines 230–239: splice the abstract container into the `dd`.  The meta
div is looked up by `dd.find('div', class_='meta')`; the subjects block by
`meta_div.find('div', class_='list-subjects')` (any descendant); the
insertion position by `meta_div.contents.index(subjects_div)`, which uses
BeautifulSoup's structural equality over the direct children only and
raises `ValueError` — modelled by `none` — when no direct child is equal
to the block that `find` returned. -/
def insertAbstractIntoDd (absDiv : Node) (dd : Node) : Option Node :=
  match findDesc (isDivClass "meta") dd with
  | some metaDiv =>
    match findDesc (isDivClass "list-subjects") metaDiv with
    | some subj =>
      match (childrenOf metaDiv).findIdx? (fun c => c == subj) with
      | some i =>
        some (mutFirstN (isDivClass "meta")
          (fun m => setChildren m ((childrenOf m).insertIdx i absDiv)) dd).1
      | none => none
    | none =>
      some (mutFirstN (isDivClass "meta")
        (fun m => setChildren m (childrenOf m ++ [absDiv])) dd).1
  | none => some (setChildren dd (childrenOf dd ++ [absDiv]))

/-- Replace the first `dd` of a sibling list by `f` of it —
`dt.find_next_sibling('dd')` as a mutation target. -/
def replaceFirstDd (f : Node → Node) : List Node → List Node
  | [] => []
  | x :: xs => if isTagN "dd" x then f x :: xs else x :: replaceFirstDd f xs

/- Rewrite, by `f`, the first `dd` sibling of the `k`-th `dt` of the tree
(`k` counting in `dtPairsN` order); everything else is unchanged.  The
`Nat` component threads the running `dt` index. -/
mutual
def mutDdN (f : Node → Node) (k : Nat) : Node → Nat → Node × Nat
  | .text s, c => (.text s, c)
  | .elem t cl h ch, c =>
      let r := mutDdL f k ch c
      (.elem t cl h r.1, r.2)

def mutDdL (f : Node → Node) (k : Nat) : List Node → Nat → List Node × Nat
  | [], c => ([], c)
  | x :: xs, c =>
      if isTagN "dt" x then
        if c = k then (x :: replaceFirstDd f xs, c + 1)
        else
          let r1 := mutDdN f k x (c + 1)
          let r2 := mutDdL f k xs r1.2
          (r1.1 :: r2.1, r2.2)
      else
        let r1 := mutDdN f k x c
        let r2 := mutDdL f k xs r1.2
        (r1.1 :: r2.1, r2.2)
end

/-- Rewrite the partner `dd` of the `k`-th `dt`. -/
def mutateKthDd (f : Node → Node) (k : Nat) (root : Node) : Node :=
  (mutDdN f k root 0).1

/-- The evolving state of `add_abstracts_to_html`: the (mutated) document,
the `papers_data` accumulator, the number of `get_abstract` calls and the
number of 0.5-unit politeness delays taken. -/
structure DrvState where
  tree : Node
  data : List PaperData
  fetches : Nat
  delays : Nat
  deriving DecidableEq

/-- Line 244: `html_link or f"https://arxiv.org/html/{arxiv_id}v1"`, with
Python's `or` truthiness (`None` and `""` both fall back). -/
def htmlLinkOrDefault (hl : Option String) (aid : String) : String :=
  match hl with
  | some h => if h = "" then "https://arxiv.org/html/" ++ aid ++ "v1" else h
  | none => "https://arxiv.org/html/" ++ aid ++ "v1"

/-- Line 246: `abstract if abstract else "（未获取到摘要）"`, with Python's
truthiness (`None` and `""` both fall back). -/
def abstractOrDefault (a : Option String) : String :=
  match a with
  | some s => if s = "" then noAbstractText else s
  | none => noAbstractText

/-- One iteration of the `for dt in dt_tags` loop (lines 165–252), acting
on the `k`-th entry of the snapshot `dt` list.  The mutations of earlier
iterations insert only `div`/`span`/text nodes, never a `dt` or `dd`, so
the `k`-th `dt` of the current tree is the `k`-th element of the original
snapshot and reading it from the current tree is exactly what the
in-place-mutating Python does.  `none` models an uncaught `ValueError`
escaping from line 235. -/
def driverStep (oracle : String → Option String) (st : DrvState) (k : Nat) :
    Option DrvState :=
  match (dtPairsN st.tree).get? k with
  | none => some st
  | some (dt, sibs) =>
    match dtArxivId dt with
    | none => some st
    | some aid =>
      match sibs.find? (isTagN "dd") with
      | none => some st
      | some dd =>
        match findDesc (isDivClass "list-title") dd with
        | none => some st
        | some tdiv =>
          let title := titleClean ⟨Node.getText tdiv⟩
          let hl := htmlLinkOfDt dt
          let mkRec := fun (a : Option String) =>
            { title := title, html_link := htmlLinkOrDefault hl aid,
              abs_link := "https://arxiv.org/abs/" ++ aid,
              abstract := abstractOrDefault a : PaperData }
          match findDesc (isDivClass "list-abstract") dd with
          | some ex =>
            -- re-entrant pass: read the abstract back, no fetch, no delay
            let a := abstractClean ⟨Node.getText ex⟩
            some { st with data := st.data ++ [mkRec (some a)] }
          | none =>
            let a := oracle aid
            match a with
            | some abs_ =>
              if abs_ = "" then
                -- Python `if abstract:` — the empty string is falsy
                some { tree := st.tree, data := st.data ++ [mkRec (some abs_)],
                       fetches := st.fetches + 1, delays := st.delays + 1 }
              else
                match insertAbstractIntoDd (mkAbstractDiv abs_) dd with
                | none => none
                | some dd' =>
                  some { tree := mutateKthDd (fun _ => dd') k st.tree,
                         data := st.data ++ [mkRec (some abs_)],
                         fetches := st.fetches + 1, delays := st.delays + 1 }
            | none =>
              some { tree := st.tree, data := st.data ++ [mkRec none],
                     fetches := st.fetches + 1, delays := st.delays + 1 }

/-- `add_abstracts_to_html` on a parsed document: iterate the loop body
over the indices of the snapshot `soup.find_all('dt')` list. -/
def driverRun (oracle : String → Option String) (doc : Node) : Option DrvState :=
  (List.range (dtPairsN doc).length).foldlM (driverStep oracle)
    { tree := doc, data := [], fetches := 0, delays := 0 }

/-- One numbered block of `save_to_txt` (lines 286–297). -/
def renderEntry (i : Nat) (p : PaperData) : String :=
  "[" ++ toString i ++ "] " ++ p.title ++ "\n" ++
  String.mk (List.replicate 80 '-') ++ "\n" ++
  (if p.html_link = "" then "" else "HTML链接: " ++ p.html_link ++ "\n") ++
  "摘要页面: " ++ p.abs_link ++ "\n" ++
  "\n摘要:\n" ++ p.abstract ++ "\n" ++
  "\n" ++ String.mk (List.replicate 80 '=') ++ "\n\n"

/-! ### Predicates used to state the claims -/

/-- A well-formed marker/detail pair in the sense of claim C1: the marker
carries a link matching `/abs/\d+\.\d+`, a following `dd` sibling exists,
and the title derived as in lines 69–88 has at least 5 characters. -/
def wfPairB (dt : Node) (sibs : List Node) : Bool :=
  (findDesc isArxivAbsLink dt).isSome &&
    (match sibs.find? (isTagN "dd") with
     | some dd =>
       (match scrTitleOf dd with
        | some t => decide (5 ≤ t.length)
        | none => false)
     | none => false)

/-- A malformed marker in the sense of claim C1: its link does not match
the pattern, or its sibling detail exists but lacks a title block (both
the `list-title` container and the descriptor-span fallback). -/
def badPairB (dt : Node) (sibs : List Node) : Bool :=
  !(findDesc isArxivAbsLink dt).isSome ||
    (match sibs.find? (isTagN "dd") with
     | some dd => !(scrTitleOf dd).isSome
     | none => false)

/-- No position of `s` matches `m` (used to say a text is label-free). -/
def noMatch (m : List Char → Option Nat) : List Char → Bool
  | [] => true
  | c :: r => (m (c :: r)).isNone && noMatch m r

/-- The identifier/title/link re-derivation of the Merge Driver
(lines 166–204), per marker/detail pair; `none` is one of the `continue`
guards, i.e. the pair is not processed. -/
def drvPairView (dt : Node) (sibs : List Node) :
    Option (String × String × Option String) :=
  match dtArxivId dt with
  | none => none
  | some aid =>
    match sibs.find? (isTagN "dd") with
    | none => none
    | some dd =>
      match findDesc (isDivClass "list-title") dd with
      | none => none
      | some tdiv => some (aid, titleClean ⟨Node.getText tdiv⟩, htmlLinkOfDt dt)

/-! ### A standard listing document

The arXiv listing layout the scraper targets: a `dl` of alternating
`dt`/`dd` children, each `dd` holding one `meta` div with a title block,
optionally an already-present abstract container (a previously enriched
listing), and optionally a subjects block.  Claim C2's amended statement
quantifies over this family. -/

structure Entry where
  ident : String
  title : String
  initialAbstract : Option String
  hasSubjects : Bool
  deriving DecidableEq

def entryDt (e : Entry) : Node :=
  .elem "dt" [] none [.elem "a" [] (some ("/abs/" ++ e.ident)) [.text "link"]]

def entryDd (e : Entry) : Node :=
  .elem "dd" [] none
    [.elem "div" ["meta"] none
      ([.elem "div" ["list-title", "mathjax"] none
          [.elem "span" ["descriptor"] none [.text "Title:"], .text e.title]] ++
        (match e.initialAbstract with
         | some a => [mkAbstractDiv a]
         | none => []) ++
        (if e.hasSubjects then
          [.elem "div" ["list-subjects"] none [.text "Robotics"]]
         else []))]

def entriesFlat (es : List Entry) : List Node :=
  es.flatMap (fun e => [entryDt e, entryDd e])

def standardDoc (es : List Entry) : Node :=
  .elem "html" [] none [.elem "dl" [] none (entriesFlat es)]

/-- The marker/detail pairs of a standard listing, entry by entry. -/
def tailsPairs : List Entry → List (Node × List Node)
  | [] => []
  | e :: r => (entryDt e, entryDd e :: entriesFlat r) :: tailsPairs r

/-- What one driver pass does to an entry: a missing abstract container is
filled from the Enricher; an existing one is kept. -/
def enrichEntry (oracle : String → Option String) (e : Entry) : Entry :=
  match e.initialAbstract with
  | some _ => e
  | none => { e with initialAbstract := oracle e.ident }

/-- The `papers_data` record the driver emits for an entry of a standard
listing. -/
def entryRecord (oracle : String → Option String) (e : Entry) : PaperData :=
  { title := titleClean ⟨"Title:".data ++ e.title.data⟩,
    html_link := "https://arxiv.org/html/" ++ e.ident ++ "v1",
    abs_link := "https://arxiv.org/abs/" ++ e.ident,
    abstract :=
      match e.initialAbstract with
      | some a0 => abstractOrDefault (some (abstractClean ⟨"Abstract: ".data ++ a0.data⟩))
      | none => abstractOrDefault (oracle e.ident) }

/-- Entries whose detail element carries no abstract container yet — those
are the ones the driver fetches (and sleeps) for. -/
def countNone (es : List Entry) : Nat :=
  (es.filter (fun e => e.initialAbstract.isNone)).length

/-- Per-entry hypothesis for the standard-listing runs: a well-shaped
identifier, and — when no abstract container is present yet — an Enricher
answer that is nonempty. -/
def entryOk (oracle : String → Option String) (e : Entry) : Prop :=
  isIdShape e.ident.data = true ∧
    (e.initialAbstract = none →
      match oracle e.ident with
      | some a => a ≠ ""
      | none => False)

/-- Strengthening of `entryOk` for idempotence: the Enricher's answer must
survive the round trip through the inserted container's text. -/
def entryOkIdem (oracle : String → Option String) (e : Entry) : Prop :=
  isIdShape e.ident.data = true ∧
    (e.initialAbstract = none →
      match oracle e.ident with
      | some a => a ≠ "" ∧ abstractClean ⟨"Abstract: ".data ++ a.data⟩ = a
      | none => False)

/-! ### Concrete documents for counterexamples and witnesses -/

/-- The concrete scenario of spec section 8: pair A is well-formed
(identifier `2511.08583`, a noisy title, two author links), pair B has an
unparseable link. -/
def docA : Node :=
  .elem "html" [] none [
    .elem "dl" [] none [
      .elem "dt" [] none [
        .elem "a" [] (some "/abs/2511.08583") [.text "arXiv:2511.08583"]],
      .elem "dd" [] none [
        .elem "div" ["meta"] none [
          .elem "div" ["list-title", "mathjax"] none [
            .elem "span" ["descriptor"] none [.text "Title:"],
            .text "  A   Study  of Robots "],
          .elem "div" ["list-authors"] none [
            .elem "span" ["descriptor"] none [.text "Authors:"],
            .elem "a" [] (some "/search/?q=a") [.text "Alice A"],
            .text ", ",
            .elem "a" [] (some "/search/?q=b") [.text "Bob B"]],
          .elem "div" ["list-subjects"] none [.text "Robotics"]]],
      .elem "dt" [] none [
        .elem "a" [] (some "/abs/badid") [.text "broken"]],
      .elem "dd" [] none [
        .elem "div" ["meta"] none [
          .elem "div" ["list-title"] none [.text "Title: Ignored Entry"]]]]]

/-- One pair whose author block has a single author link containing only
whitespace (claim C10). -/
def docC10 : Node :=
  .elem "html" [] none [
    .elem "dl" [] none [
      .elem "dt" [] none [.elem "a" [] (some "/abs/11.22") [.text "x"]],
      .elem "dd" [] none [
        .elem "div" ["meta"] none [
          .elem "div" ["list-title"] none [.text "Title: Valid Title"],
          .elem "div" ["list-authors"] none [
            .elem "a" [] (some "/search/?q=a") [.text "   "]]]]]]

/-- Two pairs separating the Extractor from the Merge Driver (claim C3):
pair 1 has no `list-title` container but does have the descriptor-span
fallback (processed by `get_papers_from_page` only); pair 2 has a title
shorter than 5 characters (processed by the Merge Driver only). -/
def docC3 : Node :=
  .elem "html" [] none [
    .elem "dl" [] none [
      .elem "dt" [] none [.elem "a" [] (some "/abs/11.22") [.text "x"]],
      .elem "dd" [] none [
        .elem "div" ["meta"] none [
          .elem "p" [] none [
            .elem "span" ["descriptor"] none [.text "Title:"],
            .text " Long Enough Title"]]],
      .elem "dt" [] none [.elem "a" [] (some "/abs/33.44") [.text "y"]],
      .elem "dd" [] none [
        .elem "div" ["meta"] none [
          .elem "div" ["list-title"] none [.text "Title: Hi"]]]]]

/-- Well-formed sample entries used by witnesses. -/
def entW1 : Entry :=
  { ident := "11.22", title := "First Paper", initialAbstract := none,
    hasSubjects := true }

def entW2 : Entry :=
  { ident := "33.44", title := "Second Paper", initialAbstract := none,
    hasSubjects := false }

/-- A marker whose link does not match `/abs/\d+\.\d+`. -/
def badDt : Node :=
  .elem "dt" [] none [.elem "a" [] (some "/abs/nope") []]

/-- A detail element whose subjects block is not a direct child of the
`meta` div (claim C7): `meta_div.contents.index(subjects_div)` raises. -/
def ddC7 : Node :=
  .elem "dd" [] none [
    .elem "div" ["meta"] none [
      .elem "div" ["list-title"] none [.text "Title: Some Paper"],
      .elem "div" [] none [
        .elem "div" ["list-subjects"] none [.text "Robotics"]]]]

/-! ## Lemmas -/

/-! ### `reSub`: fuel invariance and stepping -/

theorem reSubAux_fuel {m : List Char → Option Nat} (hm : ∀ l, m l ≠ some 0) :
    ∀ f1 f2 l, l.length ≤ f1 → l.length ≤ f2 →
      reSubAux m f1 l = reSubAux m f2 l := by
  intro f1
  induction f1 with
  | zero =>
    intro f2 l h1 _
    have : l = [] := List.length_eq_zero.mp (Nat.le_zero.mp h1)
    subst this
    cases f2 <;> simp [reSubAux]
  | succ f ih =>
    intro f2 l h1 h2
    cases l with
    | nil => cases f2 <;> simp [reSubAux]
    | cons c rest =>
      simp only [List.length_cons] at h1 h2
      cases f2 with
      | zero => omega
      | succ f2' =>
        simp only [reSubAux]
        cases hmc : m (c :: rest) with
        | none =>
          have := ih f2' rest (by omega) (by omega)
          simp [this]
        | some n =>
          cases n with
          | zero => exact absurd hmc (hm _)
          | succ n' =>
            have hlen : (rest.drop n').length ≤ rest.length := by
              simp [List.length_drop]
            exact ih f2' (rest.drop n') (by omega) (by omega)

theorem reSub_nil (m : List Char → Option Nat) : reSub m [] = [] := rfl

theorem reSub_cons_nomatch {m : List Char → Option Nat} {c : Char}
    {rest : List Char} (h : m (c :: rest) = none) :
    reSub m (c :: rest) = c :: reSub m rest := by
  simp only [reSub, List.length_cons, reSubAux, h]

theorem reSub_cons_match {m : List Char → Option Nat} (hm : ∀ l, m l ≠ some 0)
    {c : Char} {rest : List Char} {n : Nat} (h : m (c :: rest) = some (n + 1)) :
    reSub m (c :: rest) = reSub m (rest.drop n) := by
  simp only [reSub, List.length_cons, reSubAux, h]
  exact reSubAux_fuel hm _ _ _ (by simp [List.length_drop]) le_rfl

theorem reSub_nomatch_all {m : List Char → Option Nat} :
    ∀ {l : List Char}, noMatch m l = true → reSub m l = l := by
  intro l
  induction l with
  | nil => intro _; rfl
  | cons c rest ih =>
    intro h
    simp only [noMatch, Bool.and_eq_true, Option.isNone_iff_eq_none] at h
    rw [reSub_cons_nomatch h.1, ih h.2]

theorem noMatch_drop {m : List Char → Option Nat} :
    ∀ (l : List Char) (k : Nat), noMatch m l = true → noMatch m (l.drop k) = true := by
  intro l
  induction l with
  | nil => intro k _; simp [noMatch]
  | cons c rest ih =>
    intro k h
    cases k with
    | zero => simpa using h
    | succ k' =>
      simp only [noMatch, Bool.and_eq_true] at h
      exact ih k' h.2

theorem dropWhile_eq_drop_len (p : Char → Bool) :
    ∀ l : List Char, l.dropWhile p = l.drop (l.takeWhile p).length := by
  intro l
  induction l with
  | nil => simp
  | cons c r ih =>
    by_cases h : p c = true <;>
      simp [List.dropWhile_cons, List.takeWhile_cons, h, ih]

theorem noMatch_dropWhile {m : List Char → Option Nat} {l : List Char}
    (h : noMatch m l = true) : noMatch m (l.dropWhile pyIsSpace) = true := by
  rw [dropWhile_eq_drop_len]
  exact noMatch_drop l _ h

/-! ### The label matchers -/

theorem matchTitleAt_pos : ∀ l, matchTitleAt l ≠ some 0 := by
  intro l
  unfold matchTitleAt
  split <;> simp

theorem matchAbstractAt_pos : ∀ l, matchAbstractAt l ≠ some 0 := by
  intro l
  unfold matchAbstractAt
  split <;> simp

theorem lowerStartsWith_iff {pat s : List Char} :
    lowerStartsWith pat s = true ↔ (s.take pat.length).map Char.toLower = pat := by
  simp [lowerStartsWith]

theorem matchTitleAt_label (s : List Char) :
    matchTitleAt ("Title:".data ++ s) = some (6 + wsRun s) := by
  have h1 : lowerStartsWith "title:".data ("Title:".data ++ s) = true := by
    rw [lowerStartsWith_iff]
    rw [show ("title:".data : List Char).length = 6 from rfl]
    rw [show ("Title:".data ++ s).take 6 = "Title:".data from List.take_left' rfl]
    rfl
  have h2 : ("Title:".data ++ s).drop 6 = s := List.drop_left' rfl
  unfold matchTitleAt
  rw [h1, h2]
  simp

theorem matchAbstractAt_label (s : List Char) :
    matchAbstractAt ("Abstract:".data ++ s) = some (9 + wsRun s) := by
  have h1 : lowerStartsWith "abstract:".data ("Abstract:".data ++ s) = true := by
    rw [lowerStartsWith_iff]
    rw [show ("abstract:".data : List Char).length = 9 from rfl]
    rw [show ("Abstract:".data ++ s).take 9 = "Abstract:".data from List.take_left' rfl]
    rfl
  have h2 : ("Abstract:".data ++ s).drop 9 = s := List.drop_left' rfl
  unfold matchAbstractAt
  rw [h1, h2]
  simp

theorem pyIsSpace_toLower {c : Char} (h : pyIsSpace c = true) : c.toLower = c := by
  simp only [pyIsSpace, Bool.or_eq_true, decide_eq_true_eq] at h
  rcases h with ((((h | h) | h) | h) | h) | h <;> subst h <;> decide

theorem matchTitleAt_ws {c : Char} (hc : pyIsSpace c = true) (r : List Char) :
    matchTitleAt (c :: r) = none := by
  have : lowerStartsWith "title:".data (c :: r) = false := by
    rw [Bool.eq_false_iff]
    intro hcon
    rw [lowerStartsWith_iff] at hcon
    have : c.toLower = 't' := by
      have := congrArg List.head? hcon
      simpa [List.take, show ("title:".data : List Char).length = 6 from rfl] using this
    rw [pyIsSpace_toLower hc] at this
    subst this
    simp [pyIsSpace] at hc
  simp [matchTitleAt, this]

theorem matchAbstractAt_ws {c : Char} (hc : pyIsSpace c = true) (r : List Char) :
    matchAbstractAt (c :: r) = none := by
  have : lowerStartsWith "abstract:".data (c :: r) = false := by
    rw [Bool.eq_false_iff]
    intro hcon
    rw [lowerStartsWith_iff] at hcon
    have : c.toLower = 'a' := by
      have := congrArg List.head? hcon
      simpa [List.take, show ("abstract:".data : List Char).length = 9 from rfl] using this
    rw [pyIsSpace_toLower hc] at this
    subst this
    simp [pyIsSpace] at hc
  simp [matchAbstractAt, this]

theorem matchTitleAt_ne_t {c : Char} (hc : ¬ c.toLower = 't') (r : List Char) :
    matchTitleAt (c :: r) = none := by
  have : lowerStartsWith "title:".data (c :: r) = false := by
    rw [Bool.eq_false_iff]
    intro hcon
    rw [lowerStartsWith_iff] at hcon
    have := congrArg List.head? hcon
    simp [List.take, show ("title:".data : List Char).length = 6 from rfl] at this
    exact hc this
  simp [matchTitleAt, this]

theorem matchAbstractAt_ne_a {c : Char} (hc : ¬ c.toLower = 'a') (r : List Char) :
    matchAbstractAt (c :: r) = none := by
  have : lowerStartsWith "abstract:".data (c :: r) = false := by
    rw [Bool.eq_false_iff]
    intro hcon
    rw [lowerStartsWith_iff] at hcon
    have := congrArg List.head? hcon
    simp [List.take, show ("abstract:".data : List Char).length = 9 from rfl] at this
    exact hc this
  simp [matchAbstractAt, this]

/-! ### Whitespace peeling through `reSub`, `pyStrip` and `pyWords` -/

theorem reSub_ws_append {m : List Char → Option Nat}
    (hws : ∀ c r, pyIsSpace c = true → m (c :: r) = none) :
    ∀ (pre l : List Char), (∀ c ∈ pre, pyIsSpace c = true) →
      reSub m (pre ++ l) = pre ++ reSub m l := by
  intro pre
  induction pre with
  | nil => intro l _; rfl
  | cons c p ih =>
    intro l hall
    have hc := hall c (by simp)
    rw [List.cons_append, reSub_cons_nomatch (hws c _ hc),
      ih l (fun d hd => hall d (by simp [hd]))]
    rfl

theorem takeWhile_all {p : Char → Bool} {l : List Char} :
    ∀ c ∈ l.takeWhile p, p c = true := by
  intro c hc
  exact List.mem_takeWhile_imp hc

theorem reSub_eq_ws_pre {m : List Char → Option Nat}
    (hws : ∀ c r, pyIsSpace c = true → m (c :: r) = none) (s : List Char) :
    reSub m s = s.takeWhile pyIsSpace ++ reSub m (s.dropWhile pyIsSpace) := by
  conv_lhs => rw [← List.takeWhile_append_dropWhile (p := pyIsSpace) (l := s)]
  exact reSub_ws_append hws _ _ takeWhile_all

theorem dropWhile_ws_append {l1 l2 : List Char}
    (h : ∀ c ∈ l1, pyIsSpace c = true) :
    (l1 ++ l2).dropWhile pyIsSpace = l2.dropWhile pyIsSpace := by
  induction l1 with
  | nil => rfl
  | cons c p ih =>
    have hc := h c (by simp)
    simp only [List.cons_append, List.dropWhile_cons, hc, if_true]
    exact ih (fun d hd => h d (by simp [hd]))

theorem pyStrip_ws_append {pre l : List Char}
    (h : ∀ c ∈ pre, pyIsSpace c = true) :
    pyStrip (pre ++ l) = pyStrip l := by
  unfold pyStrip
  rw [dropWhile_ws_append h]

theorem reSub_title_label (s : List Char) :
    reSub matchTitleAt ("Title:".data ++ s) =
      reSub matchTitleAt (s.dropWhile pyIsSpace) := by
  have h : matchTitleAt ('T' :: ("itle:".data ++ s)) = some (5 + wsRun s + 1) := by
    have h0 := matchTitleAt_label s
    rw [show ("Title:".data ++ s : List Char) = 'T' :: ("itle:".data ++ s) from rfl] at h0
    rw [h0]
    congr 1
    omega
  rw [show ("Title:".data ++ s : List Char) = 'T' :: ("itle:".data ++ s) from rfl]
  rw [reSub_cons_match matchTitleAt_pos h]
  congr 1
  rw [show (5 : Nat) + wsRun s = ("itle:".data : List Char).length + wsRun s from rfl]
  rw [List.drop_append]
  rw [dropWhile_eq_drop_len]
  rfl

theorem reSub_abstract_label (s : List Char) :
    reSub matchAbstractAt ("Abstract:".data ++ s) =
      reSub matchAbstractAt (s.dropWhile pyIsSpace) := by
  have h : matchAbstractAt ('A' :: ("bstract:".data ++ s)) = some (8 + wsRun s + 1) := by
    have h0 := matchAbstractAt_label s
    rw [show ("Abstract:".data ++ s : List Char) = 'A' :: ("bstract:".data ++ s) from rfl] at h0
    rw [h0]
    congr 1
    omega
  rw [show ("Abstract:".data ++ s : List Char) = 'A' :: ("bstract:".data ++ s) from rfl]
  rw [reSub_cons_match matchAbstractAt_pos h]
  congr 1
  rw [show (8 : Nat) + wsRun s = ("bstract:".data : List Char).length + wsRun s from rfl]
  rw [List.drop_append]
  rw [dropWhile_eq_drop_len]
  rfl

theorem titleClean_label (s : List Char) :
    titleClean ⟨"Title:".data ++ s⟩ = titleClean ⟨s⟩ := by
  unfold titleClean
  congr 1
  rw [show (String.mk ("Title:".data ++ s)).data = "Title:".data ++ s from rfl]
  rw [show (String.mk s).data = s from rfl]
  rw [reSub_title_label s]
  rw [reSub_eq_ws_pre (fun c r hc => matchTitleAt_ws hc r) s]
  rw [pyStrip_ws_append takeWhile_all]

theorem abstractClean_label (s : List Char) :
    abstractClean ⟨"Abstract:".data ++ s⟩ = abstractClean ⟨s⟩ := by
  unfold abstractClean
  congr 1
  rw [show (String.mk ("Abstract:".data ++ s)).data = "Abstract:".data ++ s from rfl]
  rw [show (String.mk s).data = s from rfl]
  rw [reSub_abstract_label s]
  rw [reSub_eq_ws_pre (fun c r hc => matchAbstractAt_ws hc r) s]
  rw [pyStrip_ws_append takeWhile_all]

/-! ### `pyStrip`: idempotence and trimmed concatenations -/

theorem dropWhile_idem (p : Char → Bool) (l : List Char) :
    (l.dropWhile p).dropWhile p = l.dropWhile p := by
  induction l with
  | nil => rfl
  | cons c r ih =>
    by_cases h : p c = true
    · simp [List.dropWhile_cons, h, ih]
    · simp [List.dropWhile_cons, h]

theorem dropWhile_head_false (p : Char → Bool) (l : List Char) :
    l.dropWhile p = [] ∨ ∃ c r, l.dropWhile p = c :: r ∧ p c = false := by
  induction l with
  | nil => exact Or.inl rfl
  | cons c r ih =>
    by_cases h : p c = true
    · simpa [List.dropWhile_cons, h] using ih
    · exact Or.inr ⟨c, r, by simp [List.dropWhile_cons, h], by simpa using h⟩

theorem dropWhile_cons_false {p : Char → Bool} {c : Char} (r : List Char)
    (h : p c = false) : (c :: r).dropWhile p = c :: r := by
  simp [List.dropWhile_cons, h]

theorem dropWhile_of_len_eq {p : Char → Bool} {l : List Char}
    (h : (l.dropWhile p).length = l.length) : l.dropWhile p = l := by
  rw [dropWhile_eq_drop_len] at h ⊢
  rw [List.length_drop] at h
  have hle : (l.takeWhile p).length ≤ l.length :=
    (List.takeWhile_sublist p).length_le
  have hk : (l.takeWhile p).length = 0 := by omega
  rw [hk, List.drop_zero]

/-- `l.dropWhile` decomposes as the fully stripped list plus trailing
whitespace. -/
theorem pyStrip_decomp (l : List Char) :
    ∃ t, l.dropWhile pyIsSpace = pyStrip l ++ t ∧ ∀ c ∈ t, pyIsSpace c = true := by
  refine ⟨((l.dropWhile pyIsSpace).reverse.takeWhile pyIsSpace).reverse, ?_, ?_⟩
  · unfold pyStrip
    conv_lhs => rw [← List.reverse_reverse (l.dropWhile pyIsSpace)]
    conv_lhs =>
      rw [← List.takeWhile_append_dropWhile (p := pyIsSpace)
        (l := (l.dropWhile pyIsSpace).reverse)]
    rw [List.reverse_append]
  · intro c hc
    rw [List.mem_reverse] at hc
    exact List.mem_takeWhile_imp hc

theorem pyStrip_dropWhile_self (l : List Char) :
    (pyStrip l).dropWhile pyIsSpace = pyStrip l := by
  obtain ⟨t, hdec, _⟩ := pyStrip_decomp l
  rcases dropWhile_head_false pyIsSpace l with h0 | ⟨c, r, hcr, hc⟩
  · rw [h0] at hdec
    have : pyStrip l = [] := by
      rcases List.append_eq_nil.mp hdec.symm with ⟨h1, _⟩
      exact h1
    rw [this]
    rfl
  · cases hs : pyStrip l with
    | nil => rfl
    | cons d r' =>
      rw [hcr, hs] at hdec
      have hd : d = c := by
        have := congrArg List.head? hdec
        simpa using this.symm
      subst hd
      exact dropWhile_cons_false _ hc

theorem pyStrip_rev_dropWhile_self (l : List Char) :
    (pyStrip l).reverse.dropWhile pyIsSpace = (pyStrip l).reverse := by
  unfold pyStrip
  rw [List.reverse_reverse]
  exact dropWhile_idem _ _

theorem pyStrip_of_parts {l : List Char}
    (h1 : l.dropWhile pyIsSpace = l)
    (h2 : l.reverse.dropWhile pyIsSpace = l.reverse) :
    pyStrip l = l := by
  unfold pyStrip
  rw [h1, h2, List.reverse_reverse]

theorem pyStrip_idem (l : List Char) : pyStrip (pyStrip l) = pyStrip l :=
  pyStrip_of_parts (pyStrip_dropWhile_self l) (pyStrip_rev_dropWhile_self l)

theorem stripFixed_head_false {l : List Char} (h : pyStrip l = l) :
    l = [] ∨ ∃ c r, l = c :: r ∧ pyIsSpace c = false := by
  cases l with
  | nil => exact Or.inl rfl
  | cons c r =>
    refine Or.inr ⟨c, r, rfl, ?_⟩
    have hd := pyStrip_dropWhile_self (c :: r)
    rw [h] at hd
    by_contra hws
    have hws' : pyIsSpace c = true := by simpa using hws
    have : (r.dropWhile pyIsSpace).length = (c :: r).length := by
      rw [← congrArg List.length hd]
      simp [List.dropWhile_cons, hws']
    have hle : (r.dropWhile pyIsSpace).length ≤ r.length :=
      (List.dropWhile_sublist (p := pyIsSpace)).length_le
    simp at this
    omega

theorem stripFixed_append {a b : List Char} (ha : pyStrip a = a)
    (hb : pyStrip b = b) : pyStrip (a ++ b) = a ++ b := by
  rcases stripFixed_head_false ha with rfl | ⟨c, r, rfl, hc⟩
  · simpa using hb
  rcases stripFixed_head_false hb with rfl | ⟨d, q, rfl, hd⟩
  · simpa using ha
  apply pyStrip_of_parts
  · exact dropWhile_cons_false _ hc
  · rw [List.reverse_append]
    have hbrev : (d :: q).reverse.dropWhile pyIsSpace = (d :: q).reverse := by
      have := pyStrip_rev_dropWhile_self (d :: q)
      rw [hb] at this
      exact this
    rcases dropWhile_head_false pyIsSpace (d :: q).reverse with h0 | ⟨e, s, hes, he⟩
    · rw [hbrev] at h0
      simp at h0
    · rw [hbrev] at hes
      rw [hes, List.cons_append]
      rw [dropWhile_cons_false _ he]

/-! ### `pyWords` and `normWS` -/

theorem pyWordsAux_ws_all {post : List Char}
    (h : ∀ c ∈ post, pyIsSpace c = true) :
    ∀ cur, pyWordsAux cur post = pyWordsAux cur [] := by
  induction post with
  | nil => intro cur; rfl
  | cons c r ih =>
    intro cur
    have hc := h c (by simp)
    have ihr := ih (fun d hd => h d (by simp [hd]))
    by_cases hcur : cur.isEmpty = true
    · simp [pyWordsAux, hc, hcur, ihr []]
    · simp [pyWordsAux, hc, hcur, ihr []]

theorem pyWordsAux_ws_suffix {post : List Char}
    (h : ∀ c ∈ post, pyIsSpace c = true) :
    ∀ (l : List Char) (cur : List Char),
      pyWordsAux cur (l ++ post) = pyWordsAux cur l := by
  intro l
  induction l with
  | nil =>
    intro cur
    rw [List.nil_append]
    exact pyWordsAux_ws_all h cur
  | cons c r ih =>
    intro cur
    by_cases hc : pyIsSpace c = true
    · by_cases hcur : cur.isEmpty <;>
        simp [pyWordsAux, hc, hcur, ih]
    · simp [pyWordsAux, hc, ih]

theorem pyWords_ws_cons {c : Char} (hc : pyIsSpace c = true) (l : List Char) :
    pyWords (c :: l) = pyWords l := by
  simp [pyWords, pyWordsAux, hc]

theorem pyWords_dropWhile (l : List Char) :
    pyWords (l.dropWhile pyIsSpace) = pyWords l := by
  induction l with
  | nil => rfl
  | cons c r ih =>
    by_cases hc : pyIsSpace c = true
    · rw [List.dropWhile_cons, if_pos hc, ih, pyWords_ws_cons hc]
    · rw [List.dropWhile_cons, if_neg hc]

theorem pyWords_pyStrip (l : List Char) : pyWords (pyStrip l) = pyWords l := by
  obtain ⟨t, hdec, hws⟩ := pyStrip_decomp l
  calc pyWords (pyStrip l) = pyWords (pyStrip l ++ t) :=
        (pyWordsAux_ws_suffix hws _ []).symm
    _ = pyWords (l.dropWhile pyIsSpace) := by rw [hdec]
    _ = pyWords l := pyWords_dropWhile l

theorem normWS_pyStrip (l : List Char) : normWS (pyStrip l) = normWS l := by
  unfold normWS
  rw [pyWords_pyStrip]

theorem normWS_dropWhile (l : List Char) :
    normWS (l.dropWhile pyIsSpace) = normWS l := by
  unfold normWS
  rw [pyWords_dropWhile]

theorem titleClean_interior (s : List Char) (hs : noMatch matchTitleAt s = true) :
    titleClean ⟨"A Title: ".data ++ s⟩ = titleClean ⟨"A ".data ++ s⟩ := by
  have e1 : ("A Title: ".data ++ s : List Char) =
      'A' :: ' ' :: ("Title:".data ++ (' ' :: s)) := by
    simp [show ("A Title: ".data : List Char) =
      'A' :: ' ' :: ("Title:".data ++ [' ']) from rfl]
  have e2 : ("A ".data ++ s : List Char) = 'A' :: ' ' :: s := rfl
  have hA : ∀ r, matchTitleAt ('A' :: r) = none := fun r =>
    matchTitleAt_ne_t (by decide) r
  have hsp : ∀ r, matchTitleAt (' ' :: r) = none := fun r =>
    matchTitleAt_ws (by decide) r
  have hL : reSub matchTitleAt ("A Title: ".data ++ s) =
      'A' :: ' ' :: s.dropWhile pyIsSpace := by
    rw [e1, reSub_cons_nomatch (hA _), reSub_cons_nomatch (hsp _),
      reSub_title_label (' ' :: s)]
    rw [show (' ' :: s).dropWhile pyIsSpace = s.dropWhile pyIsSpace from by
      simp [List.dropWhile_cons, (by decide : pyIsSpace ' ' = true)]]
    rw [reSub_nomatch_all (noMatch_dropWhile hs)]
  have hR : reSub matchTitleAt ("A ".data ++ s) = 'A' :: ' ' :: s := by
    rw [e2, reSub_cons_nomatch (hA _), reSub_cons_nomatch (hsp _),
      reSub_nomatch_all hs]
  unfold titleClean
  rw [show (String.mk ("A Title: ".data ++ s)).data = "A Title: ".data ++ s from rfl]
  rw [show (String.mk ("A ".data ++ s)).data = "A ".data ++ s from rfl]
  rw [hL, hR]
  congr 1
  rw [normWS_pyStrip, normWS_pyStrip]
  unfold normWS
  rw [show pyWords ('A' :: ' ' :: s.dropWhile pyIsSpace) =
      ['A'] :: pyWords (s.dropWhile pyIsSpace) from rfl]
  rw [show pyWords ('A' :: ' ' :: s) = ['A'] :: pyWords s from rfl]
  rw [pyWords_dropWhile]

theorem abstractClean_interior (s : List Char)
    (hs : noMatch matchAbstractAt s = true) :
    abstractClean ⟨"X Abstract: ".data ++ s⟩ =
      abstractClean ⟨"X ".data ++ s.dropWhile pyIsSpace⟩ := by
  have e1 : ("X Abstract: ".data ++ s : List Char) =
      'X' :: ' ' :: ("Abstract:".data ++ (' ' :: s)) := by
    simp [show ("X Abstract: ".data : List Char) =
      'X' :: ' ' :: ("Abstract:".data ++ [' ']) from rfl]
  have hX : ∀ r, matchAbstractAt ('X' :: r) = none := fun r =>
    matchAbstractAt_ne_a (by decide) r
  have hsp : ∀ r, matchAbstractAt (' ' :: r) = none := fun r =>
    matchAbstractAt_ws (by decide) r
  have hL : reSub matchAbstractAt ("X Abstract: ".data ++ s) =
      'X' :: ' ' :: s.dropWhile pyIsSpace := by
    rw [e1, reSub_cons_nomatch (hX _), reSub_cons_nomatch (hsp _),
      reSub_abstract_label (' ' :: s)]
    rw [show (' ' :: s).dropWhile pyIsSpace = s.dropWhile pyIsSpace from by
      simp [List.dropWhile_cons, (by decide : pyIsSpace ' ' = true)]]
    rw [reSub_nomatch_all (noMatch_dropWhile hs)]
  have hR : reSub matchAbstractAt ("X ".data ++ s.dropWhile pyIsSpace) =
      'X' :: ' ' :: s.dropWhile pyIsSpace := by
    rw [show ("X ".data ++ s.dropWhile pyIsSpace : List Char) =
      'X' :: ' ' :: s.dropWhile pyIsSpace from rfl]
    rw [reSub_cons_nomatch (hX _), reSub_cons_nomatch (hsp _),
      reSub_nomatch_all (noMatch_dropWhile hs)]
  unfold abstractClean
  rw [show (String.mk ("X Abstract: ".data ++ s)).data =
    "X Abstract: ".data ++ s from rfl]
  rw [show (String.mk ("X ".data ++ s.dropWhile pyIsSpace)).data =
    "X ".data ++ s.dropWhile pyIsSpace from rfl]
  rw [hL, hR]

/-! ## Claim C9 — label stripping -/

/-- C9, counterexample: the code's `re.sub(r'Title:\s*', ...)` /
`re.sub(r'Abstract:\s*', ...)` delete **every** occurrence of the label,
so an occurrence inside the body is not preserved, contrary to the claim. -/
theorem C9_counterexample :
    titleClean "Title: A Title: B" ≠ "A Title: B" ∧
    titleClean "Title: A Title: B" = "A B" ∧
    abstractClean "Abstract: X Abstract: y" ≠ "X Abstract: y" ∧
    abstractClean "Abstract: X Abstract: y" = "X y" := by
  refine ⟨by decide, by decide, by decide, by decide⟩

/-- C9 (amended): the Extractor's title cleanup and the Enricher's abstract
cleanup delete a leading `Title:` / `Abstract:` label token
(case-insensitively, with its following whitespace) — and, beyond the
original claim, every further occurrence of the label inside the body is
deleted as well, rather than preserved: deleting an interior
`Title: ` / `Abstract: ` occurrence from a label-free body does not change
the emitted field. -/
theorem C9_label_stripping :
    (∀ s : List Char, titleClean ⟨"Title:".data ++ s⟩ = titleClean ⟨s⟩) ∧
    (∀ s : List Char, abstractClean ⟨"Abstract:".data ++ s⟩ = abstractClean ⟨s⟩) ∧
    (∀ s : List Char, noMatch matchTitleAt s = true →
      titleClean ⟨"A Title: ".data ++ s⟩ = titleClean ⟨"A ".data ++ s⟩) ∧
    (∀ s : List Char, noMatch matchAbstractAt s = true →
      abstractClean ⟨"X Abstract: ".data ++ s⟩ =
        abstractClean ⟨"X ".data ++ s.dropWhile pyIsSpace⟩) :=
  ⟨titleClean_label, abstractClean_label, titleClean_interior, abstractClean_interior⟩

/-- C9, witness: the amended statement at concrete inputs. -/
theorem C9_label_stripping_witness :
    titleClean ⟨"Title:".data ++ "  Robot  Arms".data⟩ =
      titleClean ⟨"  Robot  Arms".data⟩ ∧
    titleClean ⟨"A Title: ".data ++ "Robots".data⟩ =
      titleClean ⟨"A ".data ++ "Robots".data⟩ ∧
    abstractClean ⟨"X Abstract: ".data ++ "body".data⟩ =
      abstractClean ⟨"X ".data ++ ("body".data).dropWhile pyIsSpace⟩ :=
  ⟨C9_label_stripping.1 "  Robot  Arms".data,
   C9_label_stripping.2.2.1 "Robots".data (by decide),
   C9_label_stripping.2.2.2 "body".data (by decide)⟩

/-! ## Claim C10 — shape of the authors field -/

/- Concatenations of stripped fragments are stripped. -/
mutual
theorem getTextStrip_trimmed :
    ∀ n : Node, pyStrip (Node.getTextStrip n) = Node.getTextStrip n
  | .text s => pyStrip_idem s.data
  | .elem _ _ _ ch => getTextStripL_trimmed ch

theorem getTextStripL_trimmed :
    ∀ l : List Node, pyStrip (Node.getTextStripL l) = Node.getTextStripL l
  | [] => rfl
  | x :: xs => by
      rw [show Node.getTextStripL (x :: xs) =
        Node.getTextStrip x ++ Node.getTextStripL xs from rfl]
      exact stripFixed_append (getTextStrip_trimmed x) (getTextStripL_trimmed xs)
end

theorem splitAuthors_spec (s : List Char) :
    ∀ w ∈ splitAuthors s, w ≠ [] ∧ pyStrip w = w := by
  intro w hw
  unfold splitAuthors at hw
  rcases List.mem_filter.mp hw with ⟨hmem, hne⟩
  rcases List.mem_map.mp hmem with ⟨piece, _, rfl⟩
  refine ⟨by simpa using hne, pyStrip_idem piece⟩

theorem scrAuthorsOf_trimmed (dd : Node) :
    ∀ a ∈ scrAuthorsOf dd, pyStrip a.data = a.data := by
  intro a ha
  unfold scrAuthorsOf at ha
  cases hdv : findDesc (isDivClass "list-authors") dd with
  | none => rw [hdv] at ha; simp at ha
  | some adiv =>
    rw [hdv] at ha
    dsimp only at ha
    by_cases hl :
        (findAllDesc (isLinkMatching (containsSub "/search/".data)) adiv).isEmpty
    · rw [if_neg (by simp [hl])] at ha
      by_cases ht : authorsClean ⟨Node.getText adiv⟩ = ""
      · rw [if_pos ht] at ha
        simp at ha
      · rw [if_neg ht] at ha
        rcases List.mem_map.mp ha with ⟨w, hw, rfl⟩
        exact (splitAuthors_spec _ w hw).2
    · rw [if_pos (by simp [hl])] at ha
      rcases List.mem_map.mp ha with ⟨l, _, rfl⟩
      exact getTextStrip_trimmed l

theorem mem_extractFromPairs {r : ScrPaper} :
    ∀ {L : List (Node × List Node)}, r ∈ extractFromPairs L →
      ∃ pr ∈ L, scrPaperOfPair pr.1 pr.2 = some r := by
  intro L
  induction L with
  | nil => intro h; simp [extractFromPairs] at h
  | cons p ps ih =>
    intro h
    rw [extractFromPairs] at h
    cases hp : scrPaperOfPair p.1 p.2 with
    | none =>
      rw [hp] at h
      obtain ⟨q, hq, he⟩ := ih h
      exact ⟨q, by simp [hq], he⟩
    | some r' =>
      rw [hp] at h
      rcases List.mem_cons.mp h with rfl | h2
      · exact ⟨p, by simp, hp⟩
      · obtain ⟨q, hq, he⟩ := ih h2
        exact ⟨q, by simp [hq], he⟩

theorem scrPaperOfPair_elim {dt : Node} {sibs : List Node} {r : ScrPaper}
    (h : scrPaperOfPair dt sibs = some r) :
    ∃ link dd title, findDesc isArxivAbsLink dt = some link ∧
      sibs.find? (isTagN "dd") = some dd ∧ scrTitleOf dd = some title ∧
      r = { arxiv_id := (searchSlashId ((hrefOf link).getD "").data).map
              (fun c => (⟨c⟩ : String)),
            title := title, authors := scrAuthorsOf dd } := by
  unfold scrPaperOfPair at h
  cases hl : findDesc isArxivAbsLink dt with
  | none => rw [hl] at h; simp at h
  | some link =>
    rw [hl] at h
    dsimp only at h
    cases hd : sibs.find? (isTagN "dd") with
    | none => rw [hd] at h; simp at h
    | some dd =>
      rw [hd] at h
      dsimp only at h
      cases ht : scrTitleOf dd with
      | none => rw [ht] at h; simp at h
      | some title =>
        rw [ht] at h
        dsimp only at h
        by_cases hc : (decide (title = "") || decide (title.length < 5)) = true
        · rw [if_pos hc] at h; simp at h
        · rw [if_neg hc] at h
          exact ⟨link, dd, title, rfl, rfl, ht, (Option.some_injective _ h).symm⟩

/-- C10, counterexample: an author link whose text is whitespace-only
produces the empty string as an author entry — the emitted list is not a
list of non-empty strings. -/
theorem C10_counterexample :
    extractPapers docC10 =
      [{ arxiv_id := some "11.22", title := "Valid Title", authors := [""] }] ∧
    ("" : String) ∈ (extractPapers docC10).flatMap ScrPaper.authors := by
  refine ⟨by decide, by decide⟩

/-- C10 (amended): every record's `authors` field is a list of
whitespace-trimmed strings; entries produced by the comma-split fallback
are additionally non-empty, but an entry extracted from an author link may
be the empty string (when the link text is whitespace-only). -/
theorem C10_authors_shape :
    (∀ (doc : Node) (p : ScrPaper), p ∈ extractPapers doc →
      ∀ a ∈ p.authors, pyStrip a.data = a.data) ∧
    (∀ s : List Char, ∀ w ∈ splitAuthors s, w ≠ [] ∧ pyStrip w = w) := by
  constructor
  · intro doc p hp a ha
    obtain ⟨pr, _, hpr⟩ := mem_extractFromPairs hp
    obtain ⟨link, dd, title, _, _, _, rfl⟩ := scrPaperOfPair_elim hpr
    exact scrAuthorsOf_trimmed dd a ha
  · exact splitAuthors_spec

/-- C10, witness: the amended statement at concrete inputs. -/
theorem C10_authors_shape_witness :
    pyStrip ("Alice A" : String).data = ("Alice A" : String).data ∧
    (("Bob" : String).data ≠ [] ∧
      pyStrip ("Bob" : String).data = ("Bob" : String).data) := by
  constructor
  · exact C10_authors_shape.1 docA
      { arxiv_id := some "2511.08583", title := "A Study of Robots",
        authors := ["Alice A", "Bob B"] }
      (by decide) "Alice A" (by decide)
  · exact C10_authors_shape.2 " Alice X, Bob ,  ".data "Bob".data (by decide)

/-! ## Claim C6 — identifier safety -/

theorem takeWhile_all_eq {p : Char → Bool} {l : List Char}
    (h : ∀ c ∈ l, p c = true) : l.takeWhile p = l := by
  induction l with
  | nil => rfl
  | cons c r ih =>
    rw [List.takeWhile_cons, if_pos (h c (by simp))]
    rw [ih (fun d hd => h d (by simp [hd]))]

theorem takeWhile_append_stop {p : Char → Bool} {l1 : List Char} {x : Char}
    (h1 : ∀ c ∈ l1, p c = true) (hx : p x = false) (l2 : List Char) :
    (l1 ++ x :: l2).takeWhile p = l1 := by
  induction l1 with
  | nil => simp [List.takeWhile_cons, hx]
  | cons c r ih =>
    rw [List.cons_append, List.takeWhile_cons, if_pos (h1 c (by simp))]
    rw [ih (fun d hd => h1 d (by simp [hd]))]

theorem matchIdAt_struct {s cap : List Char} (h : matchIdAt s = some cap) :
    ∃ d1 d2, cap = d1 ++ '.' :: d2 ∧ d1 ≠ [] ∧ d2 ≠ [] ∧
      (∀ c ∈ d1, c.isDigit = true) ∧ (∀ c ∈ d2, c.isDigit = true) := by
  simp only [matchIdAt] at h
  split at h
  · simp at h
  · rename_i h1
    split at h
    · rename_i r2 heq
      split at h
      · simp at h
      · rename_i h2
        refine ⟨s.takeWhile Char.isDigit, r2.takeWhile Char.isDigit,
          (Option.some_injective _ h).symm, by simpa using h1, by simpa using h2,
          fun c hc => List.mem_takeWhile_imp hc,
          fun c hc => List.mem_takeWhile_imp hc⟩
    · simp at h

theorem matchIdAt_of_struct {d1 d2 : List Char} (h1 : d1 ≠ []) (h2 : d2 ≠ [])
    (hd1 : ∀ c ∈ d1, c.isDigit = true) (hd2 : ∀ c ∈ d2, c.isDigit = true) :
    matchIdAt (d1 ++ '.' :: d2) = some (d1 ++ '.' :: d2) := by
  have ht1 : (d1 ++ '.' :: d2).takeWhile Char.isDigit = d1 :=
    takeWhile_append_stop hd1 (by decide) d2
  simp only [matchIdAt, ht1]
  rw [if_neg (by simpa using h1)]
  rw [List.drop_left]
  change (if (List.takeWhile Char.isDigit d2).isEmpty = true then none
    else some (d1 ++ '.' :: List.takeWhile Char.isDigit d2)) = some (d1 ++ '.' :: d2)
  rw [takeWhile_all_eq hd2]
  rw [if_neg (by simpa using h2)]

theorem isIdShape_of_matchIdAt {s cap : List Char} (h : matchIdAt s = some cap) :
    isIdShape cap = true := by
  obtain ⟨d1, d2, rfl, h1, h2, hd1, hd2⟩ := matchIdAt_struct h
  unfold isIdShape
  rw [matchIdAt_of_struct h1 h2 hd1 hd2]
  simp

theorem searchSlashId_shape :
    ∀ {l cap : List Char}, searchSlashId l = some cap → isIdShape cap = true := by
  intro l
  induction l with
  | nil => intro cap h; simp [searchSlashId] at h
  | cons c rest ih =>
    intro cap h
    rw [searchSlashId] at h
    by_cases hc : c = '/'
    · rw [if_pos hc] at h
      cases hm : matchIdAt rest with
      | none => rw [hm] at h; exact ih h
      | some cap' =>
        rw [hm] at h
        cases h
        exact isIdShape_of_matchIdAt hm
    · rw [if_neg hc] at h
      exact ih h

theorem matchAbsAt_elim {s : List Char} (h : matchAbsAt s = true) :
    ∃ r, s = '/' :: 'a' :: 'b' :: 's' :: '/' :: r ∧ (matchIdAt r).isSome = true := by
  unfold matchAbsAt at h
  split at h
  · exact ⟨_, rfl, h⟩
  · simp at h

theorem containsAbsId_decomp :
    ∀ {l : List Char}, containsAbsId l = true →
      ∃ pre r, l = pre ++ '/' :: 'a' :: 'b' :: 's' :: '/' :: r ∧
        (matchIdAt r).isSome = true := by
  intro l
  induction l with
  | nil => intro h; simp [containsAbsId] at h
  | cons c rest ih =>
    intro h
    rw [containsAbsId, Bool.or_eq_true] at h
    rcases h with h | h
    · obtain ⟨r, heq, hm⟩ := matchAbsAt_elim h
      exact ⟨[], r, heq, hm⟩
    · obtain ⟨pre, r, heq, hm⟩ := ih h
      exact ⟨c :: pre, r, by rw [heq, List.cons_append], hm⟩

theorem searchSlashId_of_suffix :
    ∀ (pre r : List Char), (matchIdAt r).isSome = true →
      (searchSlashId (pre ++ '/' :: r)).isSome = true := by
  intro pre
  induction pre with
  | nil =>
    intro r hm
    rw [List.nil_append, searchSlashId, if_pos rfl]
    cases h : matchIdAt r with
    | none => rw [h] at hm; simp at hm
    | some cap => simp
  | cons c p ih =>
    intro r hm
    rw [List.cons_append, searchSlashId]
    by_cases hc : c = '/'
    · rw [if_pos hc]
      cases h : matchIdAt (p ++ '/' :: r) with
      | none => exact ih r hm
      | some cap => simp
    · rw [if_neg hc]
      exact ih r hm

theorem searchSlashId_of_containsAbsId {l : List Char}
    (h : containsAbsId l = true) : (searchSlashId l).isSome = true := by
  obtain ⟨pre, r, rfl, hm⟩ := containsAbsId_decomp h
  have : pre ++ '/' :: 'a' :: 'b' :: 's' :: '/' :: r =
      (pre ++ ['/', 'a', 'b', 's']) ++ '/' :: r := by
    simp
  rw [this]
  exact searchSlashId_of_suffix _ r hm

theorem isLinkMatching_elim {m : List Char → Bool} {n : Node}
    (h : isLinkMatching m n = true) :
    ∃ hr, hrefOf n = some hr ∧ m hr.data = true := by
  unfold isLinkMatching at h
  rw [Bool.and_eq_true] at h
  cases hh : hrefOf n with
  | none => rw [hh] at h; simp at h
  | some hr =>
    rw [hh] at h
    exact ⟨hr, rfl, h.2⟩

theorem findDesc_pred {p : Node → Bool} {n x : Node} (h : findDesc p n = some x) :
    p x = true :=
  List.find?_some h

theorem dtArxivId_shape {dt : Node} {aid : String}
    (h : dtArxivId dt = some aid) : isIdShape aid.data = true := by
  unfold dtArxivId at h
  cases hl : findDesc isArxivAbsLink dt with
  | none => rw [hl] at h; simp at h
  | some link =>
    rw [hl] at h
    dsimp only at h
    cases hs : searchSlashId ((hrefOf link).getD "").data with
    | none => rw [hs] at h; simp at h
    | some cap =>
      rw [hs] at h
      simp only [Option.map_some'] at h
      cases h
      exact searchSlashId_shape hs

theorem mem_extractHtmlFromPairs {q : HtmlPaper} :
    ∀ {L : List (Node × List Node)}, q ∈ extractHtmlFromPairs L →
      ∃ pr ∈ L, htmlPaperOfPair pr.1 pr.2 = some q := by
  intro L
  induction L with
  | nil => intro h; simp [extractHtmlFromPairs] at h
  | cons p ps ih =>
    intro h
    rw [extractHtmlFromPairs] at h
    cases hp : htmlPaperOfPair p.1 p.2 with
    | none =>
      rw [hp] at h
      obtain ⟨x, hx, he⟩ := ih h
      exact ⟨x, by simp [hx], he⟩
    | some q' =>
      rw [hp] at h
      rcases List.mem_cons.mp h with rfl | h2
      · exact ⟨p, by simp, hp⟩
      · obtain ⟨x, hx, he⟩ := ih h2
        exact ⟨x, by simp [hx], he⟩

theorem htmlPaperOfPair_elim {dt : Node} {sibs : List Node} {q : HtmlPaper}
    (h : htmlPaperOfPair dt sibs = some q) :
    ∃ aid dd tdiv, dtArxivId dt = some aid ∧
      sibs.find? (isTagN "dd") = some dd ∧
      findDesc (isDivClass "list-title") dd = some tdiv ∧
      q = { arxiv_id := aid, abs_link := "https://arxiv.org/abs/" ++ aid,
            html_link := htmlLinkOfDt dt, title := titleClean ⟨Node.getText tdiv⟩ } := by
  unfold htmlPaperOfPair at h
  cases ha : dtArxivId dt with
  | none => rw [ha] at h; simp at h
  | some aid =>
    rw [ha] at h
    dsimp only at h
    cases hd : sibs.find? (isTagN "dd") with
    | none => rw [hd] at h; simp at h
    | some dd =>
      rw [hd] at h
      dsimp only at h
      cases ht : findDesc (isDivClass "list-title") dd with
      | none => rw [ht] at h; simp at h
      | some tdiv =>
        rw [ht] at h
        dsimp only at h
        split at h
        · simp at h
        · exact ⟨aid, dd, tdiv, rfl, rfl, ht, (Option.some_injective _ h).symm⟩

/-- C6: every record emitted by `get_papers_from_page` carries a populated
identifier matching `\d+\.\d+` (the second regex search cannot fail once
the marker link filter matched), and every record emitted by
`extract_papers_from_html` carries an identifier matching `\d+\.\d+`; a
marker without a parseable identifier contributes no record. -/
theorem C6_identifier_safety :
    (∀ (doc : Node) (p : ScrPaper), p ∈ extractPapers doc →
      ∃ s : String, p.arxiv_id = some s ∧ isIdShape s.data = true) ∧
    (∀ (doc : Node) (q : HtmlPaper), q ∈ extractPapersHtml doc →
      isIdShape q.arxiv_id.data = true) := by
  constructor
  · intro doc p hp
    obtain ⟨pr, _, hpr⟩ := mem_extractFromPairs hp
    obtain ⟨link, dd, title, hlink, _, _, rfl⟩ := scrPaperOfPair_elim hpr
    obtain ⟨hr, hhr, hm⟩ := isLinkMatching_elim (findDesc_pred hlink)
    have hsome := searchSlashId_of_containsAbsId hm
    cases hs : searchSlashId hr.data with
    | none => rw [hs] at hsome; simp at hsome
    | some cap =>
      refine ⟨⟨cap⟩, ?_, searchSlashId_shape hs⟩
      simp [hhr, hs]
  · intro doc q hq
    obtain ⟨pr, _, hpr⟩ := mem_extractHtmlFromPairs hq
    obtain ⟨aid, dd, tdiv, ha, _, _, rfl⟩ := htmlPaperOfPair_elim hpr
    exact dtArxivId_shape ha

/-- C6, witness: the identifier safety statement at the concrete document
of spec section 8. -/
theorem C6_identifier_safety_witness :
    (∃ s : String, (some "2511.08583" : Option String) = some s ∧
      isIdShape s.data = true) ∧ isIdShape ("2511.08583" : String).data = true := by
  constructor
  · exact C6_identifier_safety.1 docA
      { arxiv_id := some "2511.08583", title := "A Study of Robots",
        authors := ["Alice A", "Bob B"] } (by decide)
  · exact C6_identifier_safety.2 docA
      { arxiv_id := "2511.08583", abs_link := "https://arxiv.org/abs/2511.08583",
        html_link := none, title := "A Study of Robots" } (by decide)

/-! ## Claim C1 — extraction completeness and skip-on-malformed -/

theorem scrPaperOfPair_of_wf {dt : Node} {sibs : List Node}
    (h : wfPairB dt sibs = true) : ∃ r, scrPaperOfPair dt sibs = some r := by
  unfold wfPairB at h
  rw [Bool.and_eq_true] at h
  obtain ⟨h1, h2⟩ := h
  cases hl : findDesc isArxivAbsLink dt with
  | none => rw [hl] at h1; simp at h1
  | some link =>
    cases hd : sibs.find? (isTagN "dd") with
    | none => rw [hd] at h2; simp at h2
    | some dd =>
      rw [hd] at h2
      dsimp only at h2
      cases ht : scrTitleOf dd with
      | none => rw [ht] at h2; simp at h2
      | some title =>
        rw [ht] at h2
        dsimp only at h2
        have h5 : 5 ≤ title.length := by simpa using h2
        have hcond : ¬((decide (title = "") || decide (title.length < 5)) = true) := by
          intro hcon
          rw [Bool.or_eq_true] at hcon
          rcases hcon with hcon | hcon
          · have : title = "" := by simpa using hcon
            subst this
            simp at h5
          · have : title.length < 5 := by simpa using hcon
            omega
        have heq :
            scrPaperOfPair dt sibs =
              some { arxiv_id := (searchSlashId ((hrefOf link).getD "").data).map
                       (fun c => (⟨c⟩ : String)),
                     title := title,
                     authors := scrAuthorsOf dd } := by
          unfold scrPaperOfPair
          rw [hl]
          dsimp only
          rw [hd]
          dsimp only
          rw [ht]
          dsimp only
          rw [if_neg hcond]
        exact ⟨_, heq⟩

theorem scrPaperOfPair_of_bad {dt : Node} {sibs : List Node}
    (h : badPairB dt sibs = true) : scrPaperOfPair dt sibs = none := by
  unfold badPairB at h
  rw [Bool.or_eq_true] at h
  unfold scrPaperOfPair
  rcases h with h | h
  · cases hl : findDesc isArxivAbsLink dt with
    | none => rfl
    | some link => rw [hl] at h; simp at h
  · cases hd : sibs.find? (isTagN "dd") with
    | none => rw [hd] at h; simp at h
    | some dd =>
      rw [hd] at h
      dsimp only at h
      cases ht : scrTitleOf dd with
      | none =>
        cases hl : findDesc isArxivAbsLink dt with
        | none => rfl
        | some link =>
          dsimp only
          rw [ht]
      | some title => rw [ht] at h; simp at h

theorem extractFromPairs_all_wf :
    ∀ L : List (Node × List Node), (∀ pr ∈ L, wfPairB pr.1 pr.2 = true) →
      List.Forall₂ (fun pr r => scrPaperOfPair pr.1 pr.2 = some r) L
        (extractFromPairs L) := by
  intro L
  induction L with
  | nil => intro _; rw [extractFromPairs]; exact List.Forall₂.nil
  | cons p ps ih =>
    intro h
    obtain ⟨r, hr⟩ := scrPaperOfPair_of_wf (h p (by simp))
    rw [extractFromPairs, hr]
    exact List.Forall₂.cons hr (ih fun q hq => h q (by simp [hq]))

/-- C1: on a document whose marker/detail pairs are all well-formed
(marker link matching `/abs/\d+\.\d+`, a following `dd` sibling, and a
derived title of at least 5 characters), `get_papers_from_page` yields
exactly one record per pair, in document order; and a malformed marker
(link not matching, or detail present but without any title block) is
dropped without affecting the records of the surrounding markers. -/
theorem C1_extraction_completeness :
    (∀ doc : Node, (∀ pr ∈ dtPairsN doc, wfPairB pr.1 pr.2 = true) →
      List.Forall₂ (fun pr r => scrPaperOfPair pr.1 pr.2 = some r)
        (dtPairsN doc) (extractPapers doc) ∧
      (extractPapers doc).length = (dtPairsN doc).length) ∧
    (∀ (L1 L2 : List (Node × List Node)) (dt : Node) (sibs : List Node),
      badPairB dt sibs = true →
      extractFromPairs (L1 ++ (dt, sibs) :: L2) = extractFromPairs (L1 ++ L2)) := by
  constructor
  · intro doc h
    have hf := extractFromPairs_all_wf (dtPairsN doc) h
    exact ⟨hf, hf.length_eq.symm⟩
  · intro L1 L2 dt sibs hbad
    induction L1 with
    | nil =>
      rw [List.nil_append, List.nil_append, extractFromPairs,
        scrPaperOfPair_of_bad hbad]
    | cons p ps ih =>
      rw [List.cons_append, List.cons_append, extractFromPairs, extractFromPairs, ih]

/-- C1, witness: a two-entry standard listing with well-formed pairs,
and a concrete malformed pair dropped from between two well-formed ones. -/
theorem C1_extraction_completeness_witness :
    (List.Forall₂ (fun pr r => scrPaperOfPair pr.1 pr.2 = some r)
      (dtPairsN (standardDoc [entW1, entW2]))
      (extractPapers (standardDoc [entW1, entW2])) ∧
      (extractPapers (standardDoc [entW1, entW2])).length = 2) ∧
    extractFromPairs
        [(entryDt entW1, [entryDd entW1]), (badDt, []),
         (entryDt entW2, [entryDd entW2])] =
      extractFromPairs
        [(entryDt entW1, [entryDd entW1]), (entryDt entW2, [entryDd entW2])] := by
  constructor
  · constructor
    · exact (C1_extraction_completeness.1 _ (by decide)).1
    · exact (C1_extraction_completeness.1 _ (by decide)).2
  · exact C1_extraction_completeness.2 [(entryDt entW1, [entryDd entW1])]
      [(entryDt entW2, [entryDd entW2])] badDt [] (by decide)

/-! ## Claims C4 and C5 — pagination termination -/

theorem range_succ_map_shift {α : Type} (g : Nat → α) (k m : Nat) :
    (List.range (k + 1)).map (fun i => g (m + i)) =
      g m :: (List.range k).map (fun i => g (m + 1 + i)) := by
  rw [List.range_succ_eq_map, List.map_cons, List.map_map]
  congr 1
  apply List.map_congr_left
  intro i _
  simp only [Function.comp_apply]
  congr 1
  omega

theorem scrapeLoop_spec (transport : String → Option Node) (baseUrl : String) :
    ∀ (k m fuel : Nat) (acc : List ScrPaper) (reqs : List String),
      (∀ i, i < k →
        50 ≤ (getPapersFromPage (transport (urlFor baseUrl (50 * (m + i))))).length) →
      (getPapersFromPage (transport (urlFor baseUrl (50 * (m + k))))).length < 50 →
      k < fuel →
      scrapeLoop transport baseUrl fuel (50 * m) acc reqs =
        (acc ++ ((List.range (k + 1)).map
            (fun i => getPapersFromPage (transport (urlFor baseUrl (50 * (m + i)))))).join,
         reqs ++ (List.range (k + 1)).map (fun i => urlFor baseUrl (50 * (m + i))),
         true) := by
  intro k
  induction k with
  | zero =>
    intro m fuel acc reqs _ hshort hfuel
    cases fuel with
    | zero => omega
    | succ f =>
      rw [scrapeLoop]
      by_cases hemp :
          (getPapersFromPage (transport (urlFor baseUrl (50 * m)))).isEmpty
      · have hnil : getPapersFromPage (transport (urlFor baseUrl (50 * m))) = [] :=
          List.isEmpty_iff.mp hemp
        rw [if_pos hemp]
        simp [hnil, show List.range 1 = [0] from rfl]
      · rw [if_neg hemp]
        rw [if_pos (by simpa using hshort)]
        simp [show List.range 1 = [0] from rfl]
  | succ k ih =>
    intro m fuel acc reqs hbig hshort hfuel
    cases fuel with
    | zero => omega
    | succ f =>
      have h0 : 50 ≤ (getPapersFromPage (transport (urlFor baseUrl (50 * (m + 0))))).length :=
        hbig 0 (by omega)
      rw [Nat.add_zero] at h0
      rw [scrapeLoop]
      rw [if_neg (by
        intro hemp
        have := List.isEmpty_iff.mp hemp
        rw [this] at h0
        simp at h0)]
      rw [if_neg (by omega)]
      have hrec := ih (m + 1) f
        (acc ++ getPapersFromPage (transport (urlFor baseUrl (50 * m))))
        (reqs ++ [urlFor baseUrl (50 * m)])
        (fun i hi => by
          have := hbig (i + 1) (by omega)
          rw [show m + (i + 1) = m + 1 + i from by omega] at this
          exact this)
        (by
          have := hshort
          rw [show m + (k + 1) = m + 1 + k from by omega] at this
          exact this)
        (by omega)
      rw [show 50 * m + 50 = 50 * (m + 1) from by ring]
      rw [hrec]
      simp only [Prod.mk.injEq]
      refine ⟨?_, ?_, trivial⟩
      · rw [List.append_assoc]
        congr 1
        rw [range_succ_map_shift
          (fun n => getPapersFromPage (transport (urlFor baseUrl (50 * n)))) (k + 1) m]
        rfl
      · rw [List.append_assoc]
        congr 1
        rw [range_succ_map_shift (fun n => urlFor baseUrl (50 * n)) (k + 1) m]
        rfl

/-- C4: if the page at offset `50*k` is the first to yield fewer than 50
records, the loop stops there: exactly the offsets `0, 50, …, 50*k` are
requested (none after termination), the loop terminates by `break`, and
the accumulated records are the concatenation — hence the sum of the
counts — of all fetched pages. -/
theorem C4_pagination_short_page (transport : String → Option Node)
    (baseUrl : String) (k fuel : Nat)
    (hbig : ∀ i, i < k →
      50 ≤ (getPapersFromPage (transport (urlFor baseUrl (50 * i)))).length)
    (hshort : (getPapersFromPage (transport (urlFor baseUrl (50 * k)))).length < 50)
    (hfuel : k < fuel) :
    scrapeAllPapers transport baseUrl fuel =
      (((List.range (k + 1)).map
          (fun i => getPapersFromPage (transport (urlFor baseUrl (50 * i))))).join,
       (List.range (k + 1)).map (fun i => urlFor baseUrl (50 * i)),
       true) ∧
    (((List.range (k + 1)).map
        (fun i => getPapersFromPage (transport (urlFor baseUrl (50 * i))))).join).length =
      (((List.range (k + 1)).map
        (fun i => (getPapersFromPage (transport (urlFor baseUrl (50 * i)))).length)).sum) := by
  constructor
  · have := scrapeLoop_spec transport baseUrl k 0 fuel [] []
      (fun i hi => by simpa using hbig i hi) (by simpa using hshort) hfuel
    unfold scrapeAllPapers
    rw [show (0 : Nat) = 50 * 0 from rfl] at this ⊢
    rw [this]
    simp
  · rw [List.length_join, List.map_map]
    rfl

/-- C5: a page yielding zero records — in particular a transport failure,
which `get_papers_from_page` turns into `[]` instead of raising — stops
the loop with the accumulator exactly as it was before that page. -/
theorem C5_pagination_empty_page (transport : String → Option Node)
    (baseUrl : String) (m fuel : Nat)
    (hbig : ∀ i, i < m →
      50 ≤ (getPapersFromPage (transport (urlFor baseUrl (50 * i)))).length)
    (hfail : transport (urlFor baseUrl (50 * m)) = none)
    (hfuel : m < fuel) :
    getPapersFromPage none = [] ∧
    scrapeAllPapers transport baseUrl fuel =
      (((List.range m).map
          (fun i => getPapersFromPage (transport (urlFor baseUrl (50 * i))))).join,
       (List.range (m + 1)).map (fun i => urlFor baseUrl (50 * i)),
       true) := by
  refine ⟨rfl, ?_⟩
  have hnil : getPapersFromPage (transport (urlFor baseUrl (50 * m))) = [] := by
    rw [hfail]
    rfl
  have h4 := (C4_pagination_short_page transport baseUrl m fuel hbig
    (by rw [hnil]; simp) hfuel).1
  rw [h4]
  rw [List.range_succ, List.map_append]
  simp [hnil]

/-- C4, witness: a transport with one short page at offset 0. -/
theorem C4_pagination_short_page_witness :
    scrapeAllPapers (fun url => if url = "B" then some docA else none) "B" 3 =
      ((((List.range 1).map (fun i => getPapersFromPage
          ((fun url => if url = "B" then some docA else none)
            (urlFor "B" (50 * i))))).join),
       (List.range 1).map (fun i => urlFor "B" (50 * i)),
       true) :=
  (C4_pagination_short_page (fun url => if url = "B" then some docA else none)
    "B" 0 3 (fun i hi => absurd hi (by omega)) (by decide) (by omega)).1

/-- C5, witness: a transport that always fails. -/
theorem C5_pagination_empty_page_witness :
    getPapersFromPage none = [] ∧
    scrapeAllPapers (fun _ => none) "B" 1 =
      ((((List.range 0).map (fun i => getPapersFromPage
          ((fun (_ : String) => (none : Option Node)) (urlFor "B" (50 * i))))).join),
       (List.range 1).map (fun i => urlFor "B" (50 * i)),
       true) :=
  C5_pagination_empty_page (fun _ => none) "B" 0 1
    (fun i hi => absurd hi (by omega)) rfl (by omega)

/-! ## Claim C8 — placeholder on absent abstract -/

/-- C8: when a processed record's detail element carries no abstract
container yet and the Enricher returns absent, the driver still appends a
record; its abstract field is the literal placeholder `（未获取到摘要）`,
never the empty string, and the placeholder appears verbatim in the text
digest block rendered for the record. -/
theorem C8_placeholder_on_absent (oracle : String → Option String)
    (st : DrvState) (k : Nat) (dt : Node) (sibs : List Node) (dd tdiv : Node)
    (aid : String)
    (hget : (dtPairsN st.tree).get? k = some (dt, sibs))
    (haid : dtArxivId dt = some aid)
    (hdd : sibs.find? (isTagN "dd") = some dd)
    (htd : findDesc (isDivClass "list-title") dd = some tdiv)
    (hex : findDesc (isDivClass "list-abstract") dd = none)
    (hor : oracle aid = none) :
    ∃ r : PaperData,
      driverStep oracle st k =
        some { st with
               data := st.data ++ [r],
               fetches := st.fetches + 1,
               delays := st.delays + 1 } ∧
      r.abstract = noAbstractText ∧ r.abstract ≠ "" ∧
      ∀ i : Nat, ∃ pre post : List Char,
        (renderEntry i r).data = pre ++ noAbstractText.data ++ post := by
  refine ⟨{ title := titleClean ⟨Node.getText tdiv⟩,
            html_link := htmlLinkOrDefault (htmlLinkOfDt dt) aid,
            abs_link := "https://arxiv.org/abs/" ++ aid,
            abstract := abstractOrDefault none }, ?_, rfl,
    (by decide : noAbstractText ≠ ("" : String)), ?_⟩
  · unfold driverStep
    rw [hget]
    dsimp only
    rw [haid]
    dsimp only
    rw [hdd]
    dsimp only
    rw [htd]
    dsimp only
    rw [hex]
    dsimp only
    rw [hor]
  · intro i
    refine ⟨("[" ++ toString i ++ "] " ++ titleClean ⟨Node.getText tdiv⟩ ++ "\n" ++
        String.mk (List.replicate 80 '-') ++ "\n" ++
        (if htmlLinkOrDefault (htmlLinkOfDt dt) aid = "" then ""
         else "HTML链接: " ++ htmlLinkOrDefault (htmlLinkOfDt dt) aid ++ "\n") ++
        "摘要页面: " ++ ("https://arxiv.org/abs/" ++ aid) ++ "\n" ++
        "\n摘要:\n").data,
      ("\n" ++ ("\n" ++ String.mk (List.replicate 80 '=') ++ "\n\n")).data, ?_⟩
    simp only [renderEntry, String.data_append, List.append_assoc]
    rfl

/-! ## Claim C3 — the driver's re-derivation versus the Extractor -/

theorem drvPairView_elim {dt : Node} {sibs : List Node}
    {v : String × String × Option String} (h : drvPairView dt sibs = some v) :
    ∃ aid dd tdiv, dtArxivId dt = some aid ∧
      sibs.find? (isTagN "dd") = some dd ∧
      findDesc (isDivClass "list-title") dd = some tdiv ∧
      v = (aid, titleClean ⟨Node.getText tdiv⟩, htmlLinkOfDt dt) := by
  unfold drvPairView at h
  cases ha : dtArxivId dt with
  | none => rw [ha] at h; simp at h
  | some aid =>
    rw [ha] at h
    dsimp only at h
    cases hd : sibs.find? (isTagN "dd") with
    | none => rw [hd] at h; simp at h
    | some dd =>
      rw [hd] at h
      dsimp only at h
      cases ht : findDesc (isDivClass "list-title") dd with
      | none => rw [ht] at h; simp at h
      | some tdiv =>
        rw [ht] at h
        exact ⟨aid, dd, tdiv, rfl, rfl, ht, (Option.some_injective _ h).symm⟩

/-- C3, counterexample: on `docC3` the Extractor of section 4.1
(`get_papers_from_page`) yields exactly the first pair (via the
descriptor-span fallback), `extract_papers_from_html` yields nothing, and
the Merge Driver processes exactly the second pair (title `Hi`, shorter
than 5 characters) — so the set of pairs the driver processes differs from
the Extractor's yield in both directions. -/
theorem C3_counterexample :
    (extractPapers docC3).map ScrPaper.title = ["Long Enough Title"] ∧
    extractPapersHtml docC3 = [] ∧
    (driverRun (fun _ => none) docC3).map (fun st => st.data.map PaperData.title) =
      some [("Hi" : String)] := by
  refine ⟨by decide, by decide, by decide⟩

/-- C3 (amended): the Merge Driver re-derives identifier, title and
detail-page link per pair by the algorithms of lines 88–113 of
`extract_papers_from_html` (same marker-link parse, same title container
read, same full-text-link fallback chain), so every pair that Extractor
yields is processed by the driver with the same identifier, title and
link; but the driver's title derivation has no descriptor-span fallback
and no minimum-length rejection, so the set of pairs it processes is
exactly \{link parses, `dd` exists, title container exists\} — a superset
of `extract_papers_from_html`'s yield that can also miss fallback-only
pairs that `get_papers_from_page` yields. -/
theorem C3_driver_rederivation :
    (∀ (dt : Node) (sibs : List Node) (q : HtmlPaper),
      htmlPaperOfPair dt sibs = some q →
        drvPairView dt sibs = some (q.arxiv_id, q.title, q.html_link)) ∧
    (∀ (oracle : String → Option String) (st : DrvState) (k : Nat)
        (dt : Node) (sibs : List Node),
      (dtPairsN st.tree).get? k = some (dt, sibs) →
      drvPairView dt sibs = none →
      driverStep oracle st k = some st) ∧
    (∀ (oracle : String → Option String) (st : DrvState) (k : Nat)
        (dt : Node) (sibs : List Node) (v : String × String × Option String),
      (dtPairsN st.tree).get? k = some (dt, sibs) →
      drvPairView dt sibs = some v →
      driverStep oracle st k = none ∨
        ∃ st' r, driverStep oracle st k = some st' ∧
          st'.data = st.data ++ [r] ∧ r.title = v.2.1 ∧
          r.abs_link = "https://arxiv.org/abs/" ++ v.1 ∧
          r.html_link = htmlLinkOrDefault v.2.2 v.1) := by
  refine ⟨?_, ?_, ?_⟩
  · intro dt sibs q hq
    obtain ⟨aid, dd, tdiv, ha, hd, ht, rfl⟩ := htmlPaperOfPair_elim hq
    unfold drvPairView
    rw [ha]
    dsimp only
    rw [hd]
    dsimp only
    rw [ht]
  · intro oracle st k dt sibs hget hview
    unfold drvPairView at hview
    unfold driverStep
    rw [hget]
    dsimp only
    cases ha : dtArxivId dt with
    | none => rfl
    | some aid =>
      dsimp only
      cases hd : sibs.find? (isTagN "dd") with
      | none => rfl
      | some dd =>
        dsimp only
        cases ht : findDesc (isDivClass "list-title") dd with
        | none => rfl
        | some tdiv =>
          rw [ha, hd] at hview
          dsimp only at hview
          rw [ht] at hview
          exact Option.noConfusion hview
  · intro oracle st k dt sibs v hget hview
    obtain ⟨aid, dd, tdiv, ha, hd, ht, rfl⟩ := drvPairView_elim hview
    unfold driverStep
    rw [hget]
    dsimp only
    rw [ha]
    dsimp only
    rw [hd]
    dsimp only
    rw [ht]
    dsimp only
    cases hex : findDesc (isDivClass "list-abstract") dd with
    | some ex =>
      dsimp only
      exact Or.inr ⟨_, _, rfl, rfl, rfl, rfl, rfl⟩
    | none =>
      dsimp only
      cases hor : oracle aid with
      | none => exact Or.inr ⟨_, _, rfl, rfl, rfl, rfl, rfl⟩
      | some a =>
        dsimp only
        by_cases haz : a = ""
        · rw [if_pos (by simpa using haz)]
          exact Or.inr ⟨_, _, rfl, rfl, rfl, rfl, rfl⟩
        · rw [if_neg (by simpa using haz)]
          cases hins : insertAbstractIntoDd (mkAbstractDiv a) dd with
          | none => exact Or.inl rfl
          | some dd' => exact Or.inr ⟨_, _, rfl, rfl, rfl, rfl, rfl⟩

/-- C8, witness: the second pair of `docC3` with an always-absent
Enricher. -/
theorem C8_placeholder_on_absent_witness :
    ∃ r : PaperData,
      driverStep (fun _ => none)
          { tree := docC3, data := [], fetches := 0, delays := 0 } 1 =
        some { tree := docC3, data := [] ++ [r], fetches := 0 + 1,
               delays := 0 + 1 } ∧
      r.abstract = noAbstractText ∧ r.abstract ≠ "" ∧
      ∀ i : Nat, ∃ pre post : List Char,
        (renderEntry i r).data = pre ++ noAbstractText.data ++ post := by
  exact C8_placeholder_on_absent (fun _ => none)
    { tree := docC3, data := [], fetches := 0, delays := 0 } 1
    (Node.elem "dt" [] none [Node.elem "a" [] (some "/abs/33.44") [Node.text "y"]])
    [Node.elem "dd" [] none [Node.elem "div" ["meta"] none
      [Node.elem "div" ["list-title"] none [Node.text "Title: Hi"]]]]
    (Node.elem "dd" [] none [Node.elem "div" ["meta"] none
      [Node.elem "div" ["list-title"] none [Node.text "Title: Hi"]]])
    (Node.elem "div" ["list-title"] none [Node.text "Title: Hi"])
    "33.44" (by decide) (by decide) (by decide) (by decide) (by decide) rfl

/-- C3, witness: the amended statement exercised at concrete pairs. -/
theorem C3_driver_rederivation_witness :
    drvPairView (entryDt entW1) [entryDd entW1] =
      some ("11.22", titleClean "Title:First Paper",
        (none : Option String)) ∧
    driverStep (fun _ => none)
        { tree := Node.elem "html" [] none [badDt], data := [], fetches := 0,
          delays := 0 } 0 =
      some { tree := Node.elem "html" [] none [badDt], data := [], fetches := 0,
             delays := 0 } := by
  constructor
  · have h1 : htmlPaperOfPair (entryDt entW1) [entryDd entW1] =
        some { arxiv_id := "11.22", abs_link := "https://arxiv.org/abs/11.22",
               html_link := none, title := titleClean "Title:First Paper" } := by
      decide
    have := C3_driver_rederivation.1 (entryDt entW1) [entryDd entW1] _ h1
    exact this
  · exact C3_driver_rederivation.2.1 (fun _ => none)
      { tree := Node.elem "html" [] none [badDt], data := [], fetches := 0,
        delays := 0 } 0 badDt [] (by decide) (by decide)

/-! ## Claim C7 — splice position of the new abstract container -/

theorem descsL_append :
    ∀ l1 l2 : List Node, Node.descsL (l1 ++ l2) = Node.descsL l1 ++ Node.descsL l2 := by
  intro l1 l2
  induction l1 with
  | nil => rfl
  | cons x xs ih =>
    rw [List.cons_append]
    rw [show Node.descsL (x :: (xs ++ l2)) =
      x :: Node.descs x ++ Node.descsL (xs ++ l2) from rfl]
    rw [show Node.descsL (x :: xs) = x :: Node.descs x ++ Node.descsL xs from rfl]
    rw [ih]
    simp

theorem find?_append_false {p : Node → Bool} {l1 : List Node}
    (h : ∀ a ∈ l1, p a = false) (l2 : List Node) :
    List.find? p (l1 ++ l2) = List.find? p l2 := by
  induction l1 with
  | nil => rfl
  | cons x xs ih =>
    rw [List.cons_append, List.find?_cons]
    rw [h x (by simp)]
    exact ih (fun a ha => h a (by simp [ha]))

/-- `find` on a sibling decomposition: all earlier subtrees fail the
filter, the marked node satisfies it. -/
theorem findDesc_decomp {p : Node → Bool} {tag : String} {cls : List String}
    {href : Option String} {da db : List Node} {x : Node}
    (hda : ∀ n ∈ Node.descsL da, p n = false) (hx : p x = true) :
    findDesc p (.elem tag cls href (da ++ x :: db)) = some x := by
  unfold findDesc
  rw [show Node.descs (.elem tag cls href (da ++ x :: db)) =
    Node.descsL (da ++ x :: db) from rfl]
  rw [descsL_append, find?_append_false hda]
  rw [show Node.descsL (x :: db) = x :: Node.descs x ++ Node.descsL db from rfl]
  exact List.find?_cons_of_pos _ hx

mutual
theorem mutFirstN_id {p : Node → Bool} {f : Node → Node} :
    ∀ n : Node, (∀ x ∈ Node.descs n, p x = false) → mutFirstN p f n = (n, false)
  | .text s, _ => rfl
  | .elem t c h ch, hall => by
    rw [show mutFirstN p f (.elem t c h ch) =
      (.elem t c h (mutFirstL p f ch).1, (mutFirstL p f ch).2) from rfl]
    rw [mutFirstL_id ch hall]

theorem mutFirstL_id {p : Node → Bool} {f : Node → Node} :
    ∀ l : List Node, (∀ x ∈ Node.descsL l, p x = false) → mutFirstL p f l = (l, false)
  | [], _ => rfl
  | x :: xs, hall => by
    have hx : p x = false := hall x (by
      rw [show Node.descsL (x :: xs) = x :: Node.descs x ++ Node.descsL xs from rfl]
      simp)
    have hin : ∀ y ∈ Node.descs x, p y = false := fun y hy => hall y (by
      rw [show Node.descsL (x :: xs) = x :: Node.descs x ++ Node.descsL xs from rfl]
      simp [hy])
    have hxs : ∀ y ∈ Node.descsL xs, p y = false := fun y hy => hall y (by
      rw [show Node.descsL (x :: xs) = x :: Node.descs x ++ Node.descsL xs from rfl]
      simp [hy])
    rw [show mutFirstL p f (x :: xs) =
      (if p x then (f x :: xs, true)
       else
         if (mutFirstN p f x).2 then ((mutFirstN p f x).1 :: xs, true)
         else (x :: (mutFirstL p f xs).1, (mutFirstL p f xs).2)) from rfl]
    rw [hx]
    rw [mutFirstN_id x hin, mutFirstL_id xs hxs]
    simp
end

theorem mutFirstL_hit {p : Node → Bool} {f : Node → Node} {da : List Node}
    (hda : ∀ n ∈ Node.descsL da, p n = false) {x : Node} (hx : p x = true)
    (db : List Node) :
    mutFirstL p f (da ++ x :: db) = (da ++ f x :: db, true) := by
  induction da with
  | nil =>
    rw [List.nil_append]
    rw [show mutFirstL p f (x :: db) =
      (if p x then (f x :: db, true)
       else
         if (mutFirstN p f x).2 then ((mutFirstN p f x).1 :: db, true)
         else (x :: (mutFirstL p f db).1, (mutFirstL p f db).2)) from rfl]
    rw [hx]
    rfl
  | cons y ys ih =>
    have hy : p y = false := hda y (by
      rw [show Node.descsL (y :: ys) = y :: Node.descs y ++ Node.descsL ys from rfl]
      simp)
    have hyin : ∀ z ∈ Node.descs y, p z = false := fun z hz => hda z (by
      rw [show Node.descsL (y :: ys) = y :: Node.descs y ++ Node.descsL ys from rfl]
      simp [hz])
    have hys : ∀ z ∈ Node.descsL ys, p z = false := fun z hz => hda z (by
      rw [show Node.descsL (y :: ys) = y :: Node.descs y ++ Node.descsL ys from rfl]
      simp [hz])
    rw [List.cons_append]
    rw [show mutFirstL p f (y :: (ys ++ x :: db)) =
      (if p y then (f y :: (ys ++ x :: db), true)
       else
         if (mutFirstN p f y).2 then ((mutFirstN p f y).1 :: (ys ++ x :: db), true)
         else (y :: (mutFirstL p f (ys ++ x :: db)).1,
               (mutFirstL p f (ys ++ x :: db)).2)) from rfl]
    rw [hy, mutFirstN_id y hyin, ih hys]
    simp

theorem findIdx?_beq_first {x : Node} :
    ∀ (pre : List Node), (∀ c ∈ pre, (c == x) = false) → ∀ (post : List Node) (i : Nat),
      List.findIdx? (fun c => c == x) (pre ++ x :: post) i = some (i + pre.length) := by
  intro pre
  induction pre with
  | nil =>
    intro _ post i
    rw [List.nil_append, List.findIdx?_cons]
    simp
  | cons c p ih =>
    intro h post i
    rw [List.cons_append, List.findIdx?_cons]
    rw [h c (by simp)]
    rw [if_neg (by simp)]
    rw [ih (fun d hd => h d (by simp [hd])) post (i + 1)]
    congr 1
    simp
    omega

theorem insertIdx_at_len {pre rest : List Node} {a : Node} :
    (pre ++ rest).insertIdx pre.length a = pre ++ a :: rest := by
  induction pre with
  | nil => rfl
  | cons c p ih =>
    rw [List.cons_append, List.length_cons, List.insertIdx_succ_cons, ih,
      List.cons_append]

/-- C7 (amended): the freshly-built abstract container is spliced as
follows.  With no `meta` div in the detail element it is appended to the
detail element's children.  With a `meta` div whose subtree has no
subjects block it is appended to that div's children.  When the first
subjects block of the `meta` div is one of its direct children (and no
earlier direct child is structurally equal to it), the container lands
immediately before it; everything else — surrounding siblings, the other
children, all attributes — is unchanged.  But when a subjects block exists
only deeper in the `meta` subtree (no structurally equal direct child),
`meta_div.contents.index` raises `ValueError` and the insertion — and the
whole run — fails instead of appending. -/
theorem C7_insertion_position :
    (∀ (absDiv dd : Node), findDesc (isDivClass "meta") dd = none →
      insertAbstractIntoDd absDiv dd =
        some (setChildren dd (childrenOf dd ++ [absDiv]))) ∧
    (∀ (absDiv : Node) (dtag : String) (dcls : List String) (dhref : Option String)
        (da db : List Node) (mcls : List String) (mhref : Option String)
        (mch : List Node),
      (∀ n ∈ Node.descsL da, isDivClass "meta" n = false) →
      isDivClass "meta" (.elem "div" mcls mhref mch) = true →
      findDesc (isDivClass "list-subjects") (.elem "div" mcls mhref mch) = none →
      insertAbstractIntoDd absDiv
          (.elem dtag dcls dhref (da ++ (.elem "div" mcls mhref mch) :: db)) =
        some (.elem dtag dcls dhref
          (da ++ (.elem "div" mcls mhref (mch ++ [absDiv])) :: db))) ∧
    (∀ (absDiv : Node) (dtag : String) (dcls : List String) (dhref : Option String)
        (da db : List Node) (mcls : List String) (mhref : Option String)
        (pre post : List Node) (subjN : Node),
      (∀ n ∈ Node.descsL da, isDivClass "meta" n = false) →
      isDivClass "meta" (.elem "div" mcls mhref (pre ++ subjN :: post)) = true →
      (∀ n ∈ Node.descsL pre, isDivClass "list-subjects" n = false) →
      isDivClass "list-subjects" subjN = true →
      (∀ c ∈ pre, (c == subjN) = false) →
      insertAbstractIntoDd absDiv
          (.elem dtag dcls dhref
            (da ++ (.elem "div" mcls mhref (pre ++ subjN :: post)) :: db)) =
        some (.elem dtag dcls dhref
          (da ++ (.elem "div" mcls mhref (pre ++ absDiv :: subjN :: post)) :: db))) ∧
    (∀ (absDiv dd metaN subjN : Node),
      findDesc (isDivClass "meta") dd = some metaN →
      findDesc (isDivClass "list-subjects") metaN = some subjN →
      (childrenOf metaN).findIdx? (fun c => c == subjN) = none →
      insertAbstractIntoDd absDiv dd = none) := by
  refine ⟨?_, ?_, ?_, ?_⟩
  · intro absDiv dd hm
    unfold insertAbstractIntoDd
    rw [hm]
  · intro absDiv dtag dcls dhref da db mcls mhref mch hda hmeta hnosub
    have hfind := @findDesc_decomp _ dtag dcls dhref _ db _ hda hmeta
    unfold insertAbstractIntoDd
    rw [hfind]
    dsimp only
    rw [hnosub]
    dsimp only
    rw [show mutFirstN (isDivClass "meta")
        (fun m => setChildren m (childrenOf m ++ [absDiv]))
        (.elem dtag dcls dhref (da ++ (.elem "div" mcls mhref mch) :: db)) =
      ((.elem dtag dcls dhref
          ((mutFirstL (isDivClass "meta")
            (fun m => setChildren m (childrenOf m ++ [absDiv]))
            (da ++ (.elem "div" mcls mhref mch) :: db)).1)),
        (mutFirstL (isDivClass "meta")
          (fun m => setChildren m (childrenOf m ++ [absDiv]))
          (da ++ (.elem "div" mcls mhref mch) :: db)).2) from rfl]
    rw [mutFirstL_hit hda hmeta db]
    rfl
  · intro absDiv dtag dcls dhref da db mcls mhref pre post subjN hda hmeta hpre
      hsubj hne
    have hfind := @findDesc_decomp _ dtag dcls dhref _ db _ hda hmeta
    have hfsub := @findDesc_decomp _ "div" mcls mhref _ post _ hpre hsubj
    unfold insertAbstractIntoDd
    rw [hfind]
    dsimp only
    rw [hfsub]
    dsimp only
    rw [show childrenOf (.elem "div" mcls mhref (pre ++ subjN :: post)) =
      pre ++ subjN :: post from rfl]
    rw [findIdx?_beq_first pre hne post 0]
    dsimp only
    rw [show mutFirstN (isDivClass "meta")
        (fun m => setChildren m ((childrenOf m).insertIdx (0 + pre.length) absDiv))
        (.elem dtag dcls dhref
          (da ++ (.elem "div" mcls mhref (pre ++ subjN :: post)) :: db)) =
      ((.elem dtag dcls dhref
          ((mutFirstL (isDivClass "meta")
            (fun m => setChildren m ((childrenOf m).insertIdx (0 + pre.length) absDiv))
            (da ++ (.elem "div" mcls mhref (pre ++ subjN :: post)) :: db)).1)),
        (mutFirstL (isDivClass "meta")
          (fun m => setChildren m ((childrenOf m).insertIdx (0 + pre.length) absDiv))
          (da ++ (.elem "div" mcls mhref (pre ++ subjN :: post)) :: db)).2) from rfl]
    rw [mutFirstL_hit hda hmeta db]
    rw [show setChildren (.elem "div" mcls mhref (pre ++ subjN :: post))
        ((childrenOf (.elem "div" mcls mhref (pre ++ subjN :: post))).insertIdx
          (0 + pre.length) absDiv) =
      (.elem "div" mcls mhref
        ((pre ++ subjN :: post).insertIdx (0 + pre.length) absDiv)) from rfl]
    rw [show (0 + pre.length) = pre.length from by omega]
    rw [insertIdx_at_len]
  · intro absDiv dd metaN subjN hm hs hidx
    unfold insertAbstractIntoDd
    rw [hm]
    dsimp only
    rw [hs]
    dsimp only
    rw [hidx]

/-- C7, counterexample: `ddC7`'s `meta` div does have a subjects block,
but it is nested one level deeper; instead of inserting before it (or
appending), `meta_div.contents.index(subjects_div)` raises `ValueError`
and no insertion takes place. -/
theorem C7_counterexample :
    findDesc (isDivClass "meta") ddC7 =
      some (Node.elem "div" ["meta"] none [
        Node.elem "div" ["list-title"] none [Node.text "Title: Some Paper"],
        Node.elem "div" [] none [
          Node.elem "div" ["list-subjects"] none [Node.text "Robotics"]]]) ∧
    (findDesc (isDivClass "list-subjects")
      (Node.elem "div" ["meta"] none [
        Node.elem "div" ["list-title"] none [Node.text "Title: Some Paper"],
        Node.elem "div" [] none [
          Node.elem "div" ["list-subjects"] none [Node.text "Robotics"]]])).isSome
      = true ∧
    insertAbstractIntoDd (mkAbstractDiv "A b c.") ddC7 = none := by
  refine ⟨by decide, by decide, by decide⟩

/-- C7, witness: the amended statement at concrete detail elements for all
four cases. -/
theorem C7_insertion_position_witness :
    insertAbstractIntoDd (mkAbstractDiv "A.")
        (Node.elem "dd" [] none [Node.text "t"]) =
      some (setChildren (Node.elem "dd" [] none [Node.text "t"])
        (childrenOf (Node.elem "dd" [] none [Node.text "t"]) ++
          [mkAbstractDiv "A."])) ∧
    insertAbstractIntoDd (mkAbstractDiv "A.")
        (Node.elem "dd" [] none
          [Node.text "x", Node.elem "div" ["meta"] none [Node.text "m"]]) =
      some (Node.elem "dd" [] none
        [Node.text "x",
         Node.elem "div" ["meta"] none ([Node.text "m"] ++ [mkAbstractDiv "A."])]) ∧
    insertAbstractIntoDd (mkAbstractDiv "A.")
        (Node.elem "dd" [] none
          [Node.elem "div" ["meta"] none
            [Node.text "m",
             Node.elem "div" ["list-subjects"] none [Node.text "s"]]]) =
      some (Node.elem "dd" [] none
        [Node.elem "div" ["meta"] none
          ([Node.text "m"] ++ mkAbstractDiv "A." ::
            (Node.elem "div" ["list-subjects"] none [Node.text "s"]) :: [])]) ∧
    insertAbstractIntoDd (mkAbstractDiv "A.") ddC7 = none := by
  refine ⟨?_, ?_, ?_, ?_⟩
  · exact C7_insertion_position.1 (mkAbstractDiv "A.")
      (Node.elem "dd" [] none [Node.text "t"]) (by decide)
  · exact C7_insertion_position.2.1 (mkAbstractDiv "A.") "dd" [] none
      [Node.text "x"] [] ["meta"] none [Node.text "m"]
      (by decide) (by decide) (by decide)
  · exact C7_insertion_position.2.2.1 (mkAbstractDiv "A.") "dd" [] none
      [] [] ["meta"] none [Node.text "m"] []
      (Node.elem "div" ["list-subjects"] none [Node.text "s"])
      (by decide) (by decide) (by decide) (by decide) (by decide)
  · exact C7_insertion_position.2.2.2 (mkAbstractDiv "A.") ddC7
      (Node.elem "div" ["meta"] none [
        Node.elem "div" ["list-title"] none [Node.text "Title: Some Paper"],
        Node.elem "div" [] none [
          Node.elem "div" ["list-subjects"] none [Node.text "Robotics"]]])
      (Node.elem "div" ["list-subjects"] none [Node.text "Robotics"])
      (by decide) (by decide) (by decide)

/-! ## Claim C2 — idempotent re-enrichment on standard listings -/

theorem isIdShape_elim {s : List Char} (h : isIdShape s = true) :
    matchIdAt s = some s := by
  unfold isIdShape at h
  cases hm : matchIdAt s with
  | none => rw [hm] at h; simp at h
  | some cap =>
    rw [hm] at h
    have : cap = s := by simpa using h
    exact congrArg some this

theorem isIdShape_chars {s : List Char} (h : isIdShape s = true) :
    ∀ c ∈ s, c.isDigit = true ∨ c = '.' := by
  have hm := isIdShape_elim h
  obtain ⟨d1, d2, heq, _, _, hd1, hd2⟩ := matchIdAt_struct hm
  intro c hc
  rw [heq] at hc
  rcases List.mem_append.mp hc with h1 | h2
  · exact Or.inl (hd1 c h1)
  · rcases List.mem_cons.mp h2 with rfl | h3
    · exact Or.inr rfl
    · exact Or.inl (hd2 c h3)

theorem matchHtmlAbsAt_mem {s : List Char} (h : matchHtmlAbsAt s = true) :
    'h' ∈ s := by
  unfold matchHtmlAbsAt at h
  split at h
  · rename_i htake
    cases s with
    | nil => simp at htake
    | cons c rest =>
      have : c = 'h' := by
        have := congrArg List.head? htake
        simpa [List.take] using this
      rw [this]
      simp
  · simp at h

theorem matchHtmlRelAt_mem {s : List Char} (h : matchHtmlRelAt s = true) :
    'h' ∈ s := by
  unfold matchHtmlRelAt at h
  split at h
  · simp
  · simp at h

theorem containsHtmlAbs_mem : ∀ {s : List Char}, containsHtmlAbs s = true → 'h' ∈ s := by
  intro s
  induction s with
  | nil => intro h; simp [containsHtmlAbs] at h
  | cons c rest ih =>
    intro h
    rw [containsHtmlAbs, Bool.or_eq_true] at h
    rcases h with h | h
    · exact matchHtmlAbsAt_mem h
    · simp [ih h]

theorem containsHtmlRel_mem : ∀ {s : List Char}, containsHtmlRel s = true → 'h' ∈ s := by
  intro s
  induction s with
  | nil => intro h; simp [containsHtmlRel] at h
  | cons c rest ih =>
    intro h
    rw [containsHtmlRel, Bool.or_eq_true] at h
    rcases h with h | h
    · exact matchHtmlRelAt_mem h
    · simp [ih h]

theorem no_h_in_absHref {ident : String} (h : isIdShape ident.data = true) :
    'h' ∉ ('/' :: 'a' :: 'b' :: 's' :: '/' :: ident.data) := by
  intro hmem
  rw [show ('/' :: 'a' :: 'b' :: 's' :: '/' :: ident.data) =
    ['/', 'a', 'b', 's', '/'] ++ ident.data from rfl] at hmem
  rcases List.mem_append.mp hmem with h1 | h2
  · exact absurd h1 (by decide)
  · rcases isIdShape_chars h 'h' h2 with hd | hd
    · exact absurd hd (by decide)
    · exact absurd hd (by decide)

theorem dtArxivId_entryDt {e : Entry} (h : isIdShape e.ident.data = true) :
    dtArxivId (entryDt e) = some e.ident := by
  have hmid := isIdShape_elim h
  have hcont : containsAbsId ('/' :: 'a' :: 'b' :: 's' :: '/' :: e.ident.data) = true := by
    rw [containsAbsId]
    rw [show matchAbsAt ('/' :: 'a' :: 'b' :: 's' :: '/' :: e.ident.data) =
      (matchIdAt e.ident.data).isSome from rfl]
    rw [hmid]
    simp
  have hlink : isArxivAbsLink
      (.elem "a" [] (some ("/abs/" ++ e.ident)) [.text "link"]) = true := by
    rw [show isArxivAbsLink (.elem "a" [] (some ("/abs/" ++ e.ident)) [.text "link"]) =
      containsAbsId ('/' :: 'a' :: 'b' :: 's' :: '/' :: e.ident.data) from rfl]
    exact hcont
  have hfind : findDesc isArxivAbsLink (entryDt e) =
      some (.elem "a" [] (some ("/abs/" ++ e.ident)) [.text "link"]) := by
    unfold findDesc
    rw [show Node.descs (entryDt e) =
      [.elem "a" [] (some ("/abs/" ++ e.ident)) [.text "link"], .text "link"]
      from rfl]
    exact List.find?_cons_of_pos _ hlink
  unfold dtArxivId
  rw [hfind]
  dsimp only
  rw [show searchSlashId
      ((hrefOf (.elem "a" [] (some ("/abs/" ++ e.ident)) [.text "link"])).getD "").data =
    searchSlashId ('/' :: 'a' :: 'b' :: 's' :: '/' :: e.ident.data) from rfl]
  rw [show searchSlashId ('/' :: 'a' :: 'b' :: 's' :: '/' :: e.ident.data) =
    (match matchIdAt ('a' :: 'b' :: 's' :: '/' :: e.ident.data) with
     | some cap => some cap
     | none => searchSlashId ('a' :: 'b' :: 's' :: '/' :: e.ident.data)) from rfl]
  rw [show matchIdAt ('a' :: 'b' :: 's' :: '/' :: e.ident.data) =
    (none : Option (List Char)) from rfl]
  rw [show searchSlashId ('a' :: 'b' :: 's' :: '/' :: e.ident.data) =
    (match matchIdAt e.ident.data with
     | some cap => some cap
     | none => searchSlashId e.ident.data) from rfl]
  rw [hmid]
  rfl

theorem htmlLinkOfDt_entryDt {e : Entry} (h : isIdShape e.ident.data = true) :
    htmlLinkOfDt (entryDt e) = none := by
  have habs : containsHtmlAbs ('/' :: 'a' :: 'b' :: 's' :: '/' :: e.ident.data) = false := by
    by_contra hcon
    exact no_h_in_absHref h (containsHtmlAbs_mem (by simpa using hcon))
  have hrel : containsHtmlRel ('/' :: 'a' :: 'b' :: 's' :: '/' :: e.ident.data) = false := by
    by_contra hcon
    exact no_h_in_absHref h (containsHtmlRel_mem (by simpa using hcon))
  have h1 : isLinkMatching containsHtmlAbs
      (.elem "a" [] (some ("/abs/" ++ e.ident)) [.text "link"]) = false := by
    rw [show isLinkMatching containsHtmlAbs
        (.elem "a" [] (some ("/abs/" ++ e.ident)) [.text "link"]) =
      containsHtmlAbs ('/' :: 'a' :: 'b' :: 's' :: '/' :: e.ident.data) from rfl]
    exact habs
  have h2 : isLinkMatching containsHtmlRel
      (.elem "a" [] (some ("/abs/" ++ e.ident)) [.text "link"]) = false := by
    rw [show isLinkMatching containsHtmlRel
        (.elem "a" [] (some ("/abs/" ++ e.ident)) [.text "link"]) =
      containsHtmlRel ('/' :: 'a' :: 'b' :: 's' :: '/' :: e.ident.data) from rfl]
    exact hrel
  unfold htmlLinkOfDt
  rw [show findDesc (isLinkMatching containsHtmlAbs) (entryDt e) =
    List.find? (isLinkMatching containsHtmlAbs)
      [.elem "a" [] (some ("/abs/" ++ e.ident)) [.text "link"], .text "link"]
    from rfl]
  rw [show findDesc (isLinkMatching containsHtmlRel) (entryDt e) =
    List.find? (isLinkMatching containsHtmlRel)
      [.elem "a" [] (some ("/abs/" ++ e.ident)) [.text "link"], .text "link"]
    from rfl]
  rw [List.find?_cons_of_neg _ (by simp [h1]), List.find?_cons_of_neg _ (by decide)]
  rw [List.find?_cons_of_neg _ (by simp [h2]), List.find?_cons_of_neg _ (by decide)]
  rfl

theorem isTagN_dt_entryDt (e : Entry) : isTagN "dt" (entryDt e) = true := rfl

theorem isTagN_dt_entryDd (e : Entry) : isTagN "dt" (entryDd e) = false := rfl

theorem dtPairsN_entryDt (e : Entry) : dtPairsN (entryDt e) = [] := rfl

theorem dtPairsN_entryDd (e : Entry) : dtPairsN (entryDd e) = [] := by
  obtain ⟨i, t, ab, hs⟩ := e
  cases ab <;> cases hs <;> rfl

theorem entriesFlat_cons (e : Entry) (r : List Entry) :
    entriesFlat (e :: r) = entryDt e :: entryDd e :: entriesFlat r := rfl

theorem dtPairsL_entriesFlat : ∀ es : List Entry,
    dtPairsL (entriesFlat es) = tailsPairs es := by
  intro es
  induction es with
  | nil => rfl
  | cons e r ih =>
    rw [entriesFlat_cons, dtPairsL, dtPairsL]
    simp only [isTagN_dt_entryDt, isTagN_dt_entryDd, dtPairsN_entryDt, dtPairsN_entryDd,
      if_true, if_false, Bool.false_eq_true, List.nil_append, List.append_nil,
      List.singleton_append, ih, tailsPairs]

theorem dtPairsN_standardDoc (es : List Entry) :
    dtPairsN (standardDoc es) = tailsPairs es := by
  rw [show dtPairsN (standardDoc es) = dtPairsL (entriesFlat es) ++ [] from rfl,
    List.append_nil, dtPairsL_entriesFlat]

theorem tailsPairs_length (es : List Entry) : (tailsPairs es).length = es.length := by
  induction es with
  | nil => rfl
  | cons e r ih => simp [tailsPairs, ih]

theorem tailsPairs_get (done : List Entry) (t : Entry) (rest : List Entry) :
    (tailsPairs (done ++ t :: rest)).get? done.length =
      some (entryDt t, entryDd t :: entriesFlat rest) := by
  induction done with
  | nil => rfl
  | cons d ds ih =>
    rw [show (d :: ds) ++ t :: rest = d :: (ds ++ t :: rest) from rfl, tailsPairs]
    simpa [List.length_cons] using ih

theorem find_dd_first (e : Entry) (rest : List Node) :
    (entryDd e :: rest).find? (isTagN "dd") = some (entryDd e) :=
  List.find?_cons_of_pos _ rfl

theorem findDesc_title_entryDd (e : Entry) :
    findDesc (isDivClass "list-title") (entryDd e) =
      some (.elem "div" ["list-title", "mathjax"] none
        [.elem "span" ["descriptor"] none [.text "Title:"], .text e.title]) := by
  obtain ⟨i, t, ab, hs⟩ := e
  cases ab <;> cases hs <;> rfl

theorem findDesc_abstract_entryDd_none (e : Entry) (h : e.initialAbstract = none) :
    findDesc (isDivClass "list-abstract") (entryDd e) = none := by
  obtain ⟨i, t, ab, hs⟩ := e
  cases ab with
  | none => cases hs <;> rfl
  | some a => simp at h

theorem findDesc_abstract_entryDd_some (e : Entry) (a : String)
    (h : e.initialAbstract = some a) :
    findDesc (isDivClass "list-abstract") (entryDd e) = some (mkAbstractDiv a) := by
  obtain ⟨i, t, ab, hs⟩ := e
  cases ab with
  | none => simp at h
  | some a0 =>
    have ha : a0 = a := by simpa using h
    subst ha
    cases hs <;> rfl

theorem insertAbstract_entryDd (e : Entry) (a : String) (h : e.initialAbstract = none) :
    insertAbstractIntoDd (mkAbstractDiv a) (entryDd e) =
      some (entryDd { e with initialAbstract := some a }) := by
  obtain ⟨i, t, ab, hs⟩ := e
  cases ab with
  | some a0 => simp at h
  | none => cases hs <;> rfl

theorem getText_titleDiv (t : String) :
    Node.getText (.elem "div" ["list-title", "mathjax"] none
      [.elem "span" ["descriptor"] none [.text "Title:"], .text t]) =
      "Title:".data ++ t.data := by
  rw [show Node.getText (.elem "div" ["list-title", "mathjax"] none
      [.elem "span" ["descriptor"] none [.text "Title:"], .text t]) =
    "Title:".data ++ (t.data ++ []) from rfl, List.append_nil]

theorem getText_mkAbstractDiv (a : String) :
    Node.getText (mkAbstractDiv a) = "Abstract: ".data ++ a.data := by
  rw [show Node.getText (mkAbstractDiv a) =
    "Abstract: ".data ++ (a.data ++ []) from rfl, List.append_nil]

theorem mutDdN_entryDt (f : Node → Node) (k : Nat) (e : Entry) (c : Nat) :
    mutDdN f k (entryDt e) c = (entryDt e, c) := rfl

theorem mutDdN_entryDd (f : Node → Node) (k : Nat) (e : Entry) (c : Nat) :
    mutDdN f k (entryDd e) c = (entryDd e, c) := by
  obtain ⟨i, t, ab, hs⟩ := e
  cases ab <;> cases hs <;> rfl

theorem replaceFirstDd_entryDd (f : Node → Node) (e : Entry) (rest : List Node) :
    replaceFirstDd f (entryDd e :: rest) = f (entryDd e) :: rest := rfl

theorem mutDdL_cons (f : Node → Node) (k : Nat) (x : Node) (xs : List Node) (c : Nat) :
    mutDdL f k (x :: xs) c =
      if isTagN "dt" x then
        if c = k then (x :: replaceFirstDd f xs, c + 1)
        else
          let r1 := mutDdN f k x (c + 1)
          let r2 := mutDdL f k xs r1.2
          (r1.1 :: r2.1, r2.2)
      else
        let r1 := mutDdN f k x c
        let r2 := mutDdL f k xs r1.2
        (r1.1 :: r2.1, r2.2) := by
  rw [mutDdL.eq_def]

theorem mutDdL_entriesFlat (f : Node → Node) :
    ∀ (done : List Entry) (t : Entry) (rest : List Entry) (c : Nat),
      mutDdL f (c + done.length) (entriesFlat (done ++ t :: rest)) c =
        (entriesFlat done ++
           entryDt t :: replaceFirstDd f (entryDd t :: entriesFlat rest),
         c + done.length + 1) := by
  intro done
  induction done with
  | nil =>
    intro t rest c
    rw [show ([] : List Entry) ++ t :: rest = t :: rest from rfl, entriesFlat_cons]
    rw [mutDdL_cons, if_pos (show isTagN "dt" (entryDt t) = true from rfl),
      if_pos (show c = c + ([] : List Entry).length by simp)]
    simp [entriesFlat]
  | cons d ds ih =>
    intro t rest c
    have hk : c + (d :: ds).length = (c + 1) + ds.length := by
      simp only [List.length_cons]
      omega
    rw [hk, show (d :: ds) ++ t :: rest = d :: (ds ++ t :: rest) from rfl,
      entriesFlat_cons]
    rw [mutDdL_cons, if_pos (show isTagN "dt" (entryDt d) = true from rfl),
      if_neg (show ¬ c = c + 1 + ds.length by omega)]
    rw [mutDdN_entryDt]
    dsimp only
    rw [mutDdL_cons, if_neg (show ¬ isTagN "dt" (entryDd d) = true by
      rw [isTagN_dt_entryDd]; simp)]
    rw [mutDdN_entryDd]
    dsimp only
    rw [ih t rest (c + 1)]
    simp [entriesFlat_cons]

theorem mutateKthDd_standard (f : Node → Node) (done : List Entry) (t : Entry)
    (rest : List Entry) :
    mutateKthDd f done.length (standardDoc (done ++ t :: rest)) =
      .elem "html" [] none [.elem "dl" [] none
        (entriesFlat done ++ entryDt t :: f (entryDd t) :: entriesFlat rest)] := by
  have h0 := mutDdL_entriesFlat f done t rest 0
  rw [Nat.zero_add] at h0
  rw [show mutateKthDd f done.length (standardDoc (done ++ t :: rest)) =
    (.elem "html" [] none [.elem "dl" [] none
      (mutDdL f done.length (entriesFlat (done ++ t :: rest)) 0).1]) from rfl]
  rw [h0, replaceFirstDd_entryDd]

theorem entriesFlat_append (l1 l2 : List Entry) :
    entriesFlat (l1 ++ l2) = entriesFlat l1 ++ entriesFlat l2 := by
  simp [entriesFlat, List.flatMap_append]

/- One driver-loop iteration on the `k`-th entry of a standard listing:
the entry's detail is enriched (or left alone when it already carries an
abstract container), one record is appended, and a fetch and a delay are
counted exactly when the abstract container was missing. -/
theorem driverStep_standard (oracle : String → Option String) (done : List Entry)
    (t : Entry) (rest : List Entry) (D : List PaperData) (F L : Nat)
    (hok : entryOk oracle t) :
    driverStep oracle
        { tree := standardDoc (done ++ t :: rest), data := D,
          fetches := F, delays := L } done.length =
      some { tree := standardDoc (done ++ enrichEntry oracle t :: rest),
             data := D ++ [entryRecord oracle t],
             fetches := F + (if t.initialAbstract.isNone then 1 else 0),
             delays := L + (if t.initialAbstract.isNone then 1 else 0) } := by
  obtain ⟨hid, habs⟩ := hok
  obtain ⟨i, ti, ab, hs⟩ := t
  unfold driverStep
  dsimp only
  rw [dtPairsN_standardDoc, tailsPairs_get]
  dsimp only
  rw [dtArxivId_entryDt hid]
  dsimp only
  rw [find_dd_first]
  dsimp only
  rw [findDesc_title_entryDd]
  dsimp only
  rw [htmlLinkOfDt_entryDt hid]
  cases ab with
  | some a0 =>
    rw [findDesc_abstract_entryDd_some ⟨i, ti, some a0, hs⟩ a0 rfl]
    dsimp only
    rw [getText_titleDiv, getText_mkAbstractDiv]
    unfold enrichEntry entryRecord
    dsimp only
    rfl
  | none =>
    rw [findDesc_abstract_entryDd_none ⟨i, ti, none, hs⟩ rfl]
    dsimp only
    have hor := habs rfl
    cases horc : oracle (Entry.mk i ti none hs).ident with
    | none => rw [horc] at hor; exact hor.elim
    | some a =>
      rw [horc] at hor
      dsimp only at hor
      dsimp only
      rw [if_neg hor]
      rw [insertAbstract_entryDd ⟨i, ti, none, hs⟩ a rfl]
      dsimp only
      rw [mutateKthDd_standard]
      rw [getText_titleDiv]
      unfold enrichEntry entryRecord standardDoc
      dsimp only
      rw [horc]
      rw [entriesFlat_append, entriesFlat_cons]
      rfl

theorem optionBindSome {α β : Type} (x : α) (f : α → Option β) :
    (some x >>= f) = f x := rfl

theorem countNone_cons (t : Entry) (rest : List Entry) :
    countNone (t :: rest) =
      (if t.initialAbstract.isNone then 1 else 0) + countNone rest := by
  unfold countNone
  rw [List.filter_cons]
  split
  · simp [Nat.add_comm]
  · simp

/- The whole driver loop over the `todo` suffix of a standard listing,
with the `done` prefix already enriched into the tree. -/
theorem driverLoop_standard (oracle : String → Option String) :
    ∀ (todo done : List Entry) (D : List PaperData) (F L : Nat),
      (∀ e ∈ todo, entryOk oracle e) →
      (List.range' done.length todo.length).foldlM (driverStep oracle)
          { tree := standardDoc (done ++ todo), data := D,
            fetches := F, delays := L } =
        some { tree := standardDoc (done ++ todo.map (enrichEntry oracle)),
               data := D ++ todo.map (entryRecord oracle),
               fetches := F + countNone todo,
               delays := L + countNone todo } := by
  intro todo
  induction todo with
  | nil =>
    intro done D F L hok
    simp [countNone, List.range']
  | cons t rest ih =>
    intro done D F L hok
    simp only [List.length_cons]
    rw [List.range'_succ, List.foldlM_cons]
    rw [driverStep_standard oracle done t rest D F L (hok t (List.mem_cons_self t rest))]
    rw [optionBindSome]
    have hok' : ∀ e ∈ rest, entryOk oracle e :=
      fun e he => hok e (List.mem_cons_of_mem t he)
    have hih := ih (done ++ [enrichEntry oracle t]) (D ++ [entryRecord oracle t])
      (F + (if t.initialAbstract.isNone then 1 else 0))
      (L + (if t.initialAbstract.isNone then 1 else 0)) hok'
    rw [show (done ++ [enrichEntry oracle t]).length = done.length + 1 by simp] at hih
    rw [show (done ++ [enrichEntry oracle t]) ++ rest = done ++ enrichEntry oracle t :: rest
      by simp] at hih
    rw [show (done ++ [enrichEntry oracle t]) ++ rest.map (enrichEntry oracle) =
      done ++ (t :: rest).map (enrichEntry oracle) by simp] at hih
    rw [show (D ++ [entryRecord oracle t]) ++ rest.map (entryRecord oracle) =
      D ++ (t :: rest).map (entryRecord oracle) by simp] at hih
    rw [hih, countNone_cons, Nat.add_assoc, Nat.add_assoc]

/-- `add_abstracts_to_html` on a standard listing: each entry enriched,
one record per entry, one fetch and one delay per entry that lacked an
abstract container. -/
theorem driverRun_standard (oracle : String → Option String) (es : List Entry)
    (hok : ∀ e ∈ es, entryOk oracle e) :
    driverRun oracle (standardDoc es) =
      some { tree := standardDoc (es.map (enrichEntry oracle)),
             data := es.map (entryRecord oracle),
             fetches := countNone es, delays := countNone es } := by
  unfold driverRun
  rw [dtPairsN_standardDoc, tailsPairs_length, List.range_eq_range']
  have h := driverLoop_standard oracle es [] [] 0 0 hok
  simpa using h

theorem entryOkIdem_entryOk {oracle : String → Option String} {e : Entry}
    (h : entryOkIdem oracle e) : entryOk oracle e := by
  obtain ⟨h1, h2⟩ := h
  refine ⟨h1, fun hn => ?_⟩
  have hthis := h2 hn
  cases horc : oracle e.ident with
  | none => rw [horc] at hthis; exact hthis.elim
  | some a =>
    rw [horc] at hthis
    dsimp only at hthis ⊢
    exact hthis.1

theorem enrichEntry_ident (oracle : String → Option String) (e : Entry) :
    (enrichEntry oracle e).ident = e.ident := by
  unfold enrichEntry
  cases hab : e.initialAbstract <;> simp

theorem enrichEntry_some {oracle : String → Option String} {e : Entry}
    (h : entryOk oracle e) : (enrichEntry oracle e).initialAbstract ≠ none := by
  unfold enrichEntry
  cases hab : e.initialAbstract with
  | some a => dsimp only; rw [hab]; simp
  | none =>
    dsimp only
    have hthis := h.2 hab
    cases horc : oracle e.ident with
    | none => rw [horc] at hthis; exact hthis.elim
    | some a => simp [horc]

theorem enrichEntry_of_some {oracle : String → Option String} {e : Entry}
    (h : e.initialAbstract ≠ none) : enrichEntry oracle e = e := by
  unfold enrichEntry
  cases hab : e.initialAbstract with
  | some a => rfl
  | none => exact absurd hab h

theorem countNone_enrich {oracle : String → Option String} {es : List Entry}
    (h : ∀ e ∈ es, entryOk oracle e) :
    countNone (es.map (enrichEntry oracle)) = 0 := by
  induction es with
  | nil => rfl
  | cons e r ih =>
    rw [List.map_cons, countNone_cons]
    rw [if_neg (by
      simpa [Option.isNone_iff_eq_none] using
        enrichEntry_some (h e (List.mem_cons_self e r)))]
    simpa using ih (fun x hx => h x (List.mem_cons_of_mem e hx))

theorem entryRecord_enrich {oracle : String → Option String} {e : Entry}
    (h : entryOkIdem oracle e) :
    entryRecord oracle (enrichEntry oracle e) = entryRecord oracle e := by
  obtain ⟨h1, h2⟩ := h
  obtain ⟨i, ti, ab, hs⟩ := e
  cases ab with
  | some a0 => rfl
  | none =>
    have hthis := h2 rfl
    cases horc : oracle (Entry.mk i ti none hs).ident with
    | none => rw [horc] at hthis; exact hthis.elim
    | some a =>
      rw [horc] at hthis
      dsimp only at hthis horc
      obtain ⟨hne, hfix⟩ := hthis
      unfold enrichEntry entryRecord
      dsimp only
      rw [horc]
      dsimp only
      rw [hfix]

/-- **C2** (amended): on a standard listing whose entries carry well-shaped
identifiers and for which the Enricher, where it is needed, answers with a
nonempty abstract that survives the round trip through the inserted
container's text, a second run of the Merge Driver on the first run's
output document performs zero fetches, takes zero politeness delays, and
produces the same record list and the same tree as the first run. -/
theorem C2_idempotent_reenrichment (oracle : String → Option String)
    (es : List Entry) (hok : ∀ e ∈ es, entryOkIdem oracle e) :
    ∃ st1 st2 : DrvState,
      driverRun oracle (standardDoc es) = some st1 ∧
      driverRun oracle st1.tree = some st2 ∧
      st2.fetches = 0 ∧ st2.delays = 0 ∧
      st2.data = st1.data ∧ st2.tree = st1.tree := by
  have hok1 : ∀ e ∈ es, entryOk oracle e :=
    fun e he => entryOkIdem_entryOk (hok e he)
  have hok2 : ∀ e ∈ es.map (enrichEntry oracle), entryOk oracle e := by
    intro e he
    obtain ⟨e0, he0, rfl⟩ := List.mem_map.mp he
    refine ⟨?_, fun hn => absurd hn (enrichEntry_some (hok1 e0 he0))⟩
    rw [enrichEntry_ident]
    exact (hok1 e0 he0).1
  have hmap : (es.map (enrichEntry oracle)).map (enrichEntry oracle) =
      es.map (enrichEntry oracle) := by
    rw [List.map_map]
    apply List.map_congr_left
    intro e he
    exact congrArg (enrichEntry oracle) rfl |>.trans
      (enrichEntry_of_some (enrichEntry_some (hok1 e he)))
  have hrec : (es.map (enrichEntry oracle)).map (entryRecord oracle) =
      es.map (entryRecord oracle) := by
    rw [List.map_map]
    apply List.map_congr_left
    intro e he
    exact entryRecord_enrich (hok e he)
  exact ⟨{ tree := standardDoc (es.map (enrichEntry oracle)),
           data := es.map (entryRecord oracle),
           fetches := countNone es, delays := countNone es },
         { tree := standardDoc ((es.map (enrichEntry oracle)).map (enrichEntry oracle)),
           data := (es.map (enrichEntry oracle)).map (entryRecord oracle),
           fetches := countNone (es.map (enrichEntry oracle)),
           delays := countNone (es.map (enrichEntry oracle)) },
         driverRun_standard oracle es hok1,
         driverRun_standard oracle (es.map (enrichEntry oracle)) hok2,
         countNone_enrich hok1, countNone_enrich hok1, hrec,
         congrArg standardDoc hmap⟩

/-- C2 counterexample: the claim's universal form is false.  On the
spec-section-8 document `docA` with an Enricher that returns absent, the
first run inserts no abstract container (there is nothing to insert), so
the second run fetches again: its fetch count is 1, not 0. -/
theorem C2_counterexample :
    ¬ (∀ (oracle : String → Option String) (doc : Node) (st1 st2 : DrvState),
        driverRun oracle doc = some st1 →
        driverRun oracle st1.tree = some st2 →
        st2.fetches = 0) := by
  intro hcl
  have hbind : (driverRun (fun _ => none) docA).bind
      (fun st1 => (driverRun (fun _ => none) st1.tree).map DrvState.fetches) =
        some 1 := by decide
  cases h1 : driverRun (fun _ => none) docA with
  | none => rw [h1] at hbind; simp at hbind
  | some st1 =>
    rw [h1] at hbind
    dsimp only [Option.bind] at hbind
    cases h2 : driverRun (fun _ => none) st1.tree with
    | none => rw [h2] at hbind; simp at hbind
    | some st2 =>
      rw [h2] at hbind
      have hz := hcl (fun _ => none) docA st1 st2 h1 h2
      have hf : st2.fetches = 1 := by simpa using hbind
      rw [hz] at hf
      exact absurd hf (by decide)

/-- C2 witness: the amended theorem applied to a one-entry standard
listing with a stable Enricher answer. -/
theorem C2_idempotent_reenrichment_witness :
    ∃ st1 st2 : DrvState,
      driverRun (fun _ => some "An abstract")
          (standardDoc [⟨"2511.08583", "A concrete title", none, true⟩]) = some st1 ∧
      driverRun (fun _ => some "An abstract") st1.tree = some st2 ∧
      st2.fetches = 0 ∧ st2.delays = 0 ∧
      st2.data = st1.data ∧ st2.tree = st1.tree :=
  C2_idempotent_reenrichment (fun _ => some "An abstract")
    [⟨"2511.08583", "A concrete title", none, true⟩]
    (by
      intro e he
      have he' : e = (⟨"2511.08583", "A concrete title", none, true⟩ : Entry) := by
        simpa using he
      subst he'
      exact ⟨by decide, fun _ => ⟨by decide, by decide⟩⟩)

end PF
